import Mathlib

/-!
Verification of the data-feeding pipeline in src/elmo/data/dataset.py.

The file is organised as: definitions (a shallow embedding of the batch
assembler `_get_batch`, the `LMDataset` shard machinery, and the
`BidirectionalLMDataset` merge), followed by theorems about those
definitions.

Modelling conventions:
* token ids are `Nat`; an encoded sentence is the pair yielded by
  `get_sentence` (token ids, optional per-word character ids);
* the sentence generator consumed by `_get_batch` is materialised as a
  finite `List Sent`; exhaustion of the list models `StopIteration`;
* numpy slice assignment `inputs[i, cur_pos:next_pos] = vals` is modelled
  by `writeSliceI`; Python's `how_many = min(len - 1, num_steps - cur_pos)`
  is computed in `Int` so that the `len = 0` case gives `-1` exactly as in
  Python;
* the inner `while` loop of `_get_batch` is a fuel recursion
  (`fillLaneF`); `fillFuel` supplies provably sufficient fuel, so the
  wrapper `fillLane` is the loop itself (see `fillLaneF_noFuelOut`);
* `chunks`, `pulls`, `sidx` are ghost instrumentation recording which
  write happened where and which pull produced each remainder; the real
  matrices are recovered from the ghost log by `rowIds` / `rowTargets` /
  `rowChars`, which replay exactly the numpy writes of lines 35-39.
-/

set_option linter.unusedVariables false

namespace Elmo

/-- An encoded sentence: the pair `(token_ids, char_ids_or_none)` yielded by
`LMDataset.get_sentence` (dataset.py line 129). -/
structure Sent where
  ids : List Nat
  chars : Option (List (List Nat))
deriving DecidableEq

/-- A lane's in-progress remainder, i.e. `cur_stream[i]` in `_get_batch`
(line 11/27).  `sidx` is ghost provenance: the index of the pull (for this
lane) that produced the sentence this remainder is a tail of. -/
structure Lane where
  ids : List Nat
  chars : Option (List (List Nat))
  sidx : Nat
deriving DecidableEq

/-- Ghost record of one loop iteration's writes (lines 35-39): at batch-row
position `pos`, the remainder `ids`/`chars` contributed its first `cnt`
tokens to `inputs` (shifted by one for `targets`).  `sidx` is the pull
index of the source sentence. -/
structure Chunk where
  pos : Int
  ids : List Nat
  chars : Option (List (List Nat))
  cnt : Nat
  sidx : Nat
deriving DecidableEq

/-- Outcome of lines 25-31 of `_get_batch`: refill the lane from the
generator when it is `None` or has at most one token left; `exhausted`
models `StopIteration` being caught (`no_more_data = True`). -/
inductive Pull where
  | exhausted : Pull
  | go (stream : List Sent) (l : Lane) (nsid : Nat) (pulled : List Sent) : Pull
deriving DecidableEq

/-- Lines 25-31: `if cur_stream[i] is None or len(cur_stream[i][0]) <= 1:
cur_stream[i] = list(next(generator))`. -/
def pullPhase (stream : List Sent) (lane : Option Lane) (nsid : Nat) : Pull :=
  match lane with
  | some l =>
    if 1 < l.ids.length then .go stream l nsid []
    else
      match stream with
      | [] => .exhausted
      | s :: rest => .go rest ⟨s.ids, s.chars, nsid⟩ (nsid + 1) [s]
  | none =>
    match stream with
    | [] => .exhausted
    | s :: rest => .go rest ⟨s.ids, s.chars, nsid⟩ (nsid + 1) [s]

/-- Result of running the inner `while cur_pos < num_steps` loop of
`_get_batch` for one lane. -/
structure FillRes where
  chunks : List Chunk
  pulls : List Sent
  stream : List Sent
  lane : Option Lane
  nsid : Nat
  pos : Int
  exhausted : Bool
  fuelOut : Bool
deriving DecidableEq

/-- The inner `while cur_pos < num_steps` loop of `_get_batch`
(lines 24-45), as a fuel recursion.  Each iteration optionally pulls a
sentence (lines 25-31), computes
`how_many = min(len(cur_stream[i][0]) - 1, num_steps - cur_pos)` (line 32,
in `Int`: a zero-token remainder gives `-1` as in Python), logs the write
of lines 35-39 as a `Chunk`, advances `cur_pos` (line 41) and trims the
remainder (lines 43-45; for `how_many = -1` the remainder is empty and
Python's `[-1:]` is also empty). -/
def fillLaneF (numSteps : Nat) (mwl : Option Nat) :
    Nat → List Sent → Option Lane → Nat → Int → FillRes
  | 0, stream, lane, nsid, pos => ⟨[], [], stream, lane, nsid, pos, false, true⟩
  | fuel + 1, stream, lane, nsid, pos =>
    if pos < (numSteps : Int) then
      match pullPhase stream lane nsid with
      | .exhausted => ⟨[], [], stream, lane, nsid, pos, true, false⟩
      | .go stream' l nsid' ps =>
        let hm : Int := min ((l.ids.length : Int) - 1) ((numSteps : Int) - pos)
        let cnt : Nat := hm.toNat
        let lane' : Lane :=
          ⟨l.ids.drop cnt,
           if mwl.isSome then l.chars.map (fun cs => cs.drop cnt) else l.chars,
           l.sidx⟩
        let r := fillLaneF numSteps mwl fuel stream' (some lane') nsid' (pos + hm)
        ⟨⟨pos, l.ids, l.chars, cnt, l.sidx⟩ :: r.chunks, ps ++ r.pulls,
         r.stream, r.lane, r.nsid, r.pos, r.exhausted, r.fuelOut⟩
    else ⟨[], [], stream, lane, nsid, pos, false, false⟩

/-- Fuel that provably suffices for `fillLaneF` (each iteration either
consumes a sentence from the stream or strictly advances `cur_pos`, and a
backwards move of `cur_pos` only happens together with a pull). -/
def fillFuel (numSteps : Nat) (stream : List Sent) (pos : Int) : Nat :=
  2 * stream.length + ((numSteps : Int) - pos).toNat + 1

/-- The per-lane fill loop with sufficient fuel: this is the loop of
lines 24-45 itself. -/
def fillLane (numSteps : Nat) (mwl : Option Nat) (stream : List Sent)
    (lane : Option Lane) (nsid : Nat) (pos : Int) : FillRes :=
  fillLaneF numSteps mwl (fillFuel numSteps stream pos) stream lane nsid pos

/-- numpy slice assignment `row[p : p + len(vals)] = vals` for the
in-bounds writes performed by `_get_batch` (`p + len(vals) ≤ len(row)`
always holds there, see `chunk WF` lemmas).  A negative `p` is modelled as
a no-op; it is reachable only through zero-token sentences, where numpy
would raise a broadcast `ValueError`. -/
def writeSliceI {α : Type} (row : List α) (p : Int) (vals : List α) : List α :=
  if p < 0 then row
  else row.take p.toNat ++ vals ++ row.drop (p.toNat + vals.length)

/-- `cur_stream[i][0][:how_many]` (line 35). -/
def valsI (c : Chunk) : List Nat := c.ids.take c.cnt

/-- `cur_stream[i][0][1:how_many+1]` (line 39). -/
def valsT (c : Chunk) : List Nat := (c.ids.drop 1).take c.cnt

/-- `cur_stream[i][1][:how_many]` (line 37); the chars are present whenever
`max_word_length` is, per the vocabulary contract. -/
def valsC (c : Chunk) : List (List Nat) := (c.chars.getD []).take c.cnt

/-- Replay the `inputs[i, cur_pos:next_pos] = ...` writes of a lane's fill
on the zero row allocated at line 15. -/
def rowIds (numSteps : Nat) (chunks : List Chunk) : List Nat :=
  chunks.foldl (fun row c => writeSliceI row c.pos (valsI c)) (List.replicate numSteps 0)

/-- Replay the `targets[i, cur_pos:next_pos] = ...` writes (line 21 zeros,
line 39 writes). -/
def rowTargets (numSteps : Nat) (chunks : List Chunk) : List Nat :=
  chunks.foldl (fun row c => writeSliceI row c.pos (valsT c)) (List.replicate numSteps 0)

/-- Replay the `char_inputs[i, cur_pos:next_pos] = ...` writes (line 17
zeros, line 37 writes). -/
def rowChars (numSteps m : Nat) (chunks : List Chunk) : List (List Nat) :=
  chunks.foldl (fun row c => writeSliceI row c.pos (valsC c))
    (List.replicate numSteps (List.replicate m 0))

/-- One batch as yielded at line 55, plus ghost instrumentation
(`laneChunks`, `lanePulls`, `finalPos`) recording how it was assembled. -/
structure Batch where
  token_ids : List (List Nat)
  tokens_characters : Option (List (List (List Nat)))
  next_token_id : List (List Nat)
  laneChunks : List (List Chunk)
  lanePulls : List (List Sent)
  finalPos : List Int
deriving DecidableEq

/-- Per-lane carried state between batches: the remainder `cur_stream[i]`
and the ghost pull counter. -/
structure LaneSlot where
  lane : Option Lane
  nsid : Nat
deriving DecidableEq

structure FillLanesRes where
  results : List FillRes
  stream : List Sent
  exhausted : Bool
deriving DecidableEq

/-- The `for i in range(batch_size)` loop (lines 22-45): lanes are filled
left to right from the shared generator; `exhausted` is the shared
`no_more_data` flag (a lane that hits `StopIteration` breaks its own inner
loop; later lanes still run, against the now-empty stream). -/
def fillLanes (numSteps : Nat) (mwl : Option Nat) :
    List LaneSlot → List Sent → FillLanesRes
  | [], stream => ⟨[], stream, false⟩
  | slot :: rest, stream =>
    let r := fillLane numSteps mwl stream slot.lane slot.nsid 0
    let rr := fillLanes numSteps mwl rest r.stream
    ⟨r :: rr.results, rr.stream, r.exhausted || rr.exhausted⟩

/-- The dict `X` built at lines 52-53, from the per-lane fill results. -/
def mkBatch (numSteps : Nat) (mwl : Option Nat) (frs : List FillRes) : Batch :=
  { token_ids := frs.map (fun r => rowIds numSteps r.chunks)
    tokens_characters := mwl.map (fun m => frs.map (fun r => rowChars numSteps m r.chunks))
    next_token_id := frs.map (fun r => rowTargets numSteps r.chunks)
    laneChunks := frs.map (fun r => r.chunks)
    lanePulls := frs.map (fun r => r.pulls)
    finalPos := frs.map (fun r => r.pos) }

/-- The `while True` generator loop of `_get_batch` (lines 14-55),
truncated to its first `n` yields: assemble a batch; if `no_more_data` was
set, discard it and stop (lines 47-50), otherwise yield it and continue. -/
def getBatchesAux (numSteps : Nat) (mwl : Option Nat) :
    Nat → List Sent → List LaneSlot → List Batch
  | 0, _, _ => []
  | n + 1, stream, slots =>
    let fr := fillLanes numSteps mwl slots stream
    if fr.exhausted then []
    else
      mkBatch numSteps mwl fr.results ::
        getBatchesAux numSteps mwl n fr.stream
          (fr.results.map (fun r => ⟨r.lane, r.nsid⟩))

/-- `_get_batch(generator, batch_size, num_steps, max_word_length)`:
the first `n` batches yielded when the generator produces `stream`.
`cur_stream = [None] * batch_size` is line 11. -/
def getBatches (batchSize numSteps : Nat) (mwl : Option Nat) (n : Nat)
    (stream : List Sent) : List Batch :=
  getBatchesAux numSteps mwl n stream (List.replicate batchSize ⟨none, 0⟩)

/-! ### Provenance and delivered-pair views of a batch -/

/-- Does chunk `c` write batch-row position `t`? (The write of lines 35-39
touches `[cur_pos, cur_pos + how_many)`; `cnt = 0` chunks touch nothing.) -/
def covers (c : Chunk) (t : Nat) : Prop :=
  0 ≤ c.pos ∧ c.pos.toNat ≤ t ∧ t < c.pos.toNat + c.cnt

instance (c : Chunk) (t : Nat) : Decidable (covers c t) := by
  unfold covers; infer_instance

/-- The chunk whose write is the last to touch position `t` (later writes
win, exactly as repeated numpy slice assignments do). -/
def lastCover : List Chunk → Nat → Option Chunk
  | [], _ => none
  | c :: cs, t =>
    match lastCover cs t with
    | some c' => some c'
    | none => if covers c t then some c else none

/-- Which source sentence (pull index, per lane) position `t` of a lane's
row was filled from. -/
def provAt (chunks : List Chunk) (t : Nat) : Option Nat :=
  (lastCover chunks t).map (fun c => c.sidx)

/-- The adjacent `(token, next token)` pairs of a sentence. -/
def pairsOf (ids : List Nat) : List (Nat × Nat) := ids.zip (ids.drop 1)

/-- Pairs still pending in a lane remainder. -/
def pendPairs : Option Lane → List (Nat × Nat)
  | none => []
  | some l => pairsOf l.ids

/-- The `(inputs, targets)` pairs delivered by a list of chunks, in write
order. -/
def deliveredPairs (chunks : List Chunk) : List (Nat × Nat) :=
  chunks.flatMap (fun c => (valsI c).zip (valsT c))

/-- The `(token_ids[i,t], next_token_id[i,t])` pairs of lane `i` of a
batch, in position order. -/
def rowPairs (b : Batch) (i : Nat) : List (Nat × Nat) :=
  (b.token_ids.getD i []).zip (b.next_token_id.getD i [])

/-- Chunks tile positions `[a, b)` consecutively (each write starts where
the previous one ended). -/
def Tiling : List Chunk → Int → Int → Prop
  | [], a, b => a = b
  | c :: cs, a, b => c.pos = a ∧ Tiling cs (a + c.cnt) b

/-- All chunks of lane `i` across a list of emitted batches, in order. -/
def laneChunksOf (bs : List Batch) (i : Nat) : List Chunk :=
  bs.flatMap (fun b => b.laneChunks.getD i [])

/-- All sentences pulled for lane `i` across a list of emitted batches, in
pull order. -/
def lanePullsOf (bs : List Batch) (i : Nat) : List Sent :=
  bs.flatMap (fun b => b.lanePulls.getD i [])

/-- Lane `i`'s `(token, target)` pairs concatenated across a list of
emitted batches. -/
def rowPairsOf (bs : List Batch) (i : Nat) : List (Nat × Nat) :=
  bs.flatMap (fun b => rowPairs b i)

/-! ### `LMDataset`: shard selection, loading and the sentence generator

File reads and the vocabulary adapter are external, so `_load_shard`
(lines 99-121) is abstracted by an oracle `load : String → List Sent`
mapping a shard name to its encoded sentences, and `random.shuffle` by an
oracle `shuffle : List String → List String` (constrained to be a
permutation in the theorems that need it). -/

/-- Python exceptions relevant to this pipeline. -/
inductive PyErr where
  | stopIteration
  | runtimeError
  | indexError
deriving DecidableEq

/-- The mutable state of an `LMDataset` instance. -/
structure DState where
  allShards : List String
  shardsToChoose : List String
  test : Bool
  ids : List Sent
  i : Nat
  nids : Nat
deriving DecidableEq

/-- `_choose_random_shard` (lines 78-83): refill and shuffle the bag when
empty, then `pop()` — Python's `list.pop()` removes the LAST element. -/
def chooseRandomShard (shuffle : List String → List String) (st : DState) :
    Except PyErr (String × DState) :=
  let bag := if st.shardsToChoose.length = 0 then shuffle st.allShards
             else st.shardsToChoose
  match bag.getLast? with
  | none => .error .indexError
  | some nm => .ok (nm, { st with shardsToChoose := bag.dropLast })

/-- `_load_random_shard` (lines 85-97).  In test mode it pops the LAST
element of `self._all_shards` destructively, and raises `StopIteration`
when none remain. -/
def loadRandomShard (load : String → List Sent)
    (shuffle : List String → List String) (st : DState) : Except PyErr DState :=
  if st.test then
    match st.allShards.getLast? with
    | none => .error .stopIteration
    | some nm =>
      let ids := load nm
      .ok { st with allShards := st.allShards.dropLast,
                    ids := ids, i := 0, nids := ids.length }
  else
    match chooseRandomShard shuffle st with
    | .error e => .error e
    | .ok (nm, st') =>
      let ids := load nm
      .ok { st' with ids := ids, i := 0, nids := ids.length }

/-- `LMDataset.__init__` (lines 64-75) for a file pattern resolving to
`allShards`: discovery itself only logs, but the constructor immediately
calls `self._load_random_shard()` (line 75). -/
def LMDataset.init (load : String → List Sent)
    (shuffle : List String → List String) (allShards : List String)
    (test : Bool) : Except PyErr DState :=
  loadRandomShard load shuffle ⟨allShards, [], test, [], 0, 0⟩

/-- One `next()` on the `get_sentence` generator (lines 123-129).
`get_sentence` is a generator, so under PEP 479 (mandatory from
Python 3.7, which this repository's MindSpore dependency requires) a
`StopIteration` raised by `_load_random_shard` inside its body escapes as
`RuntimeError("generator raised StopIteration")`, not as `StopIteration`. -/
def nextSentence (load : String → List Sent)
    (shuffle : List String → List String) (st : DState) :
    Except PyErr (Sent × DState) :=
  if st.i = st.nids then
    match loadRandomShard load shuffle st with
    | .error .stopIteration => .error .runtimeError
    | .error e => .error e
    | .ok st' =>
      match st'.ids.get? st'.i with
      | none => .error .indexError
      | some ret => .ok (ret, { st' with i := st'.i + 1 })
  else
    match st.ids.get? st.i with
    | none => .error .indexError
    | some ret => .ok (ret, { st with i := st.i + 1 })

/-- What `_get_batch`'s pull (lines 26-30) observes when it calls
`next(generator)`: only `StopIteration` is caught (becoming the clean
`no_more_data` end-of-data path); every other exception propagates to the
caller of `iter_batches`. -/
inductive PullOutcome where
  | sent (s : Sent) (st : DState)
  | exhaustedClean
  | err (e : PyErr)
deriving DecidableEq

/-- Lines 26-30 of `_get_batch` running against a live `get_sentence`
generator. -/
def batchPull (load : String → List Sent)
    (shuffle : List String → List String) (st : DState) : PullOutcome :=
  match nextSentence load shuffle st with
  | .ok (s, st') => .sent s st'
  | .error .stopIteration => .exhaustedClean
  | .error e => .err e

/-- Iterate `_choose_random_shard` `k` times, collecting the chosen shard
names. -/
def chooseN (shuffle : List String → List String) :
    Nat → DState → Except PyErr (List String × DState)
  | 0, st => .ok ([], st)
  | k + 1, st =>
    match chooseRandomShard shuffle st with
    | .error e => .error e
    | .ok (nm, st') =>
      match chooseN shuffle k st' with
      | .error e => .error e
      | .ok (nms, st'') => .ok (nm :: nms, st'')

/-- Iterate `_load_random_shard` `k` times, collecting the successive
shard buffers, together with the exception (if any) that ended the run. -/
def loadSeq (load : String → List Sent) (shuffle : List String → List String) :
    Nat → DState → List (List Sent) × Option PyErr
  | 0, _ => ([], none)
  | k + 1, st =>
    match loadRandomShard load shuffle st with
    | .error e => ([], some e)
    | .ok st' =>
      let r := loadSeq load shuffle k st'
      (st'.ids :: r.1, r.2)

/-! ### `BidirectionalLMDataset.iter_batches` (lines 160-170) -/

/-- Values stored in the batch dict `X`. -/
inductive Val where
  | mat : List (List Nat) → Val
  | cmat : Option (List (List (List Nat))) → Val
deriving DecidableEq

/-- The dict literal of lines 52-53. -/
def Batch.toDict (b : Batch) : List (String × Val) :=
  [("token_ids", .mat b.token_ids),
   ("tokens_characters", .cmat b.tokens_characters),
   ("next_token_id", .mat b.next_token_id)]

/-- Python `d[k] = v`: overwrite in place if the key exists, else append. -/
def dictSet (d : List (String × Val)) (k : String) (v : Val) :
    List (String × Val) :=
  if d.any (fun kv => kv.1 = k) then
    d.map (fun kv => if kv.1 = k then (k, v) else kv)
  else d ++ [(k, v)]

/-- Lines 168-169: `for k, v in Xr.items(): X[k + '_reverse'] = v`. -/
def mergeBidir (X Xr : List (String × Val)) : List (String × Val) :=
  Xr.foldl (fun d kv => dictSet d (kv.1 ++ "_reverse") kv.2) X

/-- Lines 162-170: zip the forward and backward batch sequences (Python
`zip` stops at the shorter one) and merge each pair. -/
def iterBatchesBi (fwd bwd : List Batch) : List (List (String × Val)) :=
  (fwd.zip bwd).map (fun p => mergeBidir p.1.toDict p.2.toDict)

/-- `BidirectionalLMDataset.iter_batches`, with the two directions'
sentence streams materialised. -/
def BidirectionalLMDataset.iterBatches (batchSize numSteps : Nat)
    (mwl : Option Nat) (n : Nat) (fstream bstream : List Sent) :
    List (List (String × Val)) :=
  iterBatchesBi (getBatches batchSize numSteps mwl n fstream)
    (getBatches batchSize numSteps mwl n bstream)

/-! ## Lemmas -/

/-! ### List helpers -/

theorem zip_take_take {α β : Type} :
    ∀ (a : List α) (b : List β) (n : Nat),
      (a.zip b).take n = (a.take n).zip (b.take n)
  | [], _, _ => by simp
  | _ :: _, [], _ => by simp
  | _ :: _, _ :: _, 0 => by simp
  | x :: a, y :: b, n + 1 => by
    simp [List.zip_cons_cons, zip_take_take a b n]

theorem zip_drop_drop {α β : Type} :
    ∀ (a : List α) (b : List β) (n : Nat),
      (a.zip b).drop n = (a.drop n).zip (b.drop n)
  | [], _, _ => by simp
  | _ :: _, [], _ => by simp
  | _ :: _, _ :: _, 0 => by simp
  | x :: a, y :: b, n + 1 => by
    simp [List.zip_cons_cons, zip_drop_drop a b n]

/-- Splitting the adjacent-pair list of a sentence at `cnt`: the pairs a
chunk delivers, followed by the pairs of the trimmed remainder, are the
pairs of the whole remainder. -/
theorem pairsOf_split (ids : List Nat) (cnt : Nat) :
    (ids.take cnt).zip ((ids.drop 1).take cnt) ++ pairsOf (ids.drop cnt) =
      pairsOf ids := by
  have h1 : (ids.take cnt).zip ((ids.drop 1).take cnt) = (pairsOf ids).take cnt := by
    rw [pairsOf, zip_take_take]
  have h2 : pairsOf (ids.drop cnt) = (pairsOf ids).drop cnt := by
    rw [pairsOf, pairsOf, zip_drop_drop, List.drop_drop, List.drop_drop,
      Nat.add_comm cnt 1]
  rw [h1, h2, List.take_append_drop]

theorem pairsOf_short {ids : List Nat} (h : ids.length ≤ 1) : pairsOf ids = [] := by
  match ids, h with
  | [], _ => rfl
  | [a], _ => rfl

/-! ### `writeSliceI` -/

theorem writeSliceI_length {α : Type} (row : List α) (p : Int) (vals : List α)
    (h : 0 ≤ p → p.toNat + vals.length ≤ row.length) :
    (writeSliceI row p vals).length = row.length := by
  unfold writeSliceI
  split
  · rfl
  · rename_i hp
    have := h (by omega)
    simp only [List.length_append, List.length_take, List.length_drop]
    omega

theorem writeSliceI_getElem? {α : Type} (row : List α) (p : Int) (vals : List α)
    (hwf : 0 ≤ p → p.toNat + vals.length ≤ row.length) (t : Nat) :
    (writeSliceI row p vals)[t]? =
      if 0 ≤ p ∧ p.toNat ≤ t ∧ t < p.toNat + vals.length then vals[t - p.toNat]?
      else row[t]? := by
  unfold writeSliceI
  split
  · rename_i hp
    rw [if_neg]
    rintro ⟨h0, -, -⟩
    omega
  · rename_i hp
    have h0 : 0 ≤ p := by omega
    have hb : p.toNat + vals.length ≤ row.length := hwf h0
    have hlt : (row.take p.toNat).length = p.toNat := by
      simp only [List.length_take]; omega
    have hAB : (List.take p.toNat row ++ vals).length = p.toNat + vals.length := by
      rw [List.length_append, hlt]
    rcases Nat.lt_or_ge t p.toNat with ht | ht
    · rw [if_neg (by omega)]
      rw [List.getElem?_append, hAB, if_pos (by omega), List.getElem?_append, hlt,
        if_pos ht, List.getElem?_take, if_pos ht]
    · rcases Nat.lt_or_ge t (p.toNat + vals.length) with ht2 | ht2
      · rw [if_pos ⟨h0, ht, ht2⟩]
        rw [List.getElem?_append, hAB, if_pos ht2,
          List.getElem?_append_right (by rw [hlt]; exact ht), hlt]
      · rw [if_neg (by omega)]
        rw [List.getElem?_append_right (by rw [hAB]; exact ht2), hAB,
          List.getElem?_drop]
        congr 1
        omega

/-! ### `Tiling` and `lastCover` -/

theorem Tiling.le : ∀ {cs : List Chunk} {a b : Int}, Tiling cs a b → a ≤ b
  | [], _, _, h => le_of_eq h
  | c :: cs, _, _, h => by
    have := Tiling.le h.2
    omega

theorem lastCover_mem : ∀ {cs : List Chunk} {t : Nat} {c : Chunk},
    lastCover cs t = some c → c ∈ cs ∧ covers c t
  | [], t, c, h => by simp [lastCover] at h
  | c₀ :: cs, t, c, h => by
    cases hrec : lastCover cs t with
    | none =>
      simp only [lastCover, hrec] at h
      by_cases hcov : covers c₀ t
      · rw [if_pos hcov] at h
        injection h with h
        subst h
        exact ⟨List.mem_cons_self _ _, hcov⟩
      · rw [if_neg hcov] at h
        exact absurd h (by simp)
    | some c' =>
      simp only [lastCover, hrec] at h
      injection h with h
      subst h
      have := lastCover_mem hrec
      exact ⟨List.mem_cons_of_mem _ this.1, this.2⟩

/-! ### Replaying a write log -/

theorem foldWrite_length {α : Type} (vf : Chunk → List α) :
    ∀ (chunks : List Chunk) (row : List α),
      (∀ c ∈ chunks, 0 ≤ c.pos → c.pos.toNat + (vf c).length ≤ row.length) →
      (chunks.foldl (fun r c => writeSliceI r c.pos (vf c)) row).length = row.length
  | [], row, _ => rfl
  | c :: cs, row, h => by
    rw [List.foldl_cons]
    have hw : (writeSliceI row c.pos (vf c)).length = row.length :=
      writeSliceI_length _ _ _ (h c (List.mem_cons_self _ _))
    rw [foldWrite_length vf cs _ (fun c' hc' => hw ▸ h c' (List.mem_cons_of_mem _ hc')),
      hw]

/-- The value of a replayed row at position `t` is the value written by the
last chunk covering `t` (numpy's last-write-wins), or the initial value if
no chunk covers it. -/
theorem foldWrite_getElem? {α : Type} (vf : Chunk → List α) :
    ∀ (chunks : List Chunk) (row : List α) (t : Nat),
      (∀ c ∈ chunks, (vf c).length = c.cnt ∧
        (0 ≤ c.pos → c.pos.toNat + c.cnt ≤ row.length)) →
      (chunks.foldl (fun r c => writeSliceI r c.pos (vf c)) row)[t]? =
        match lastCover chunks t with
        | some c => (vf c)[t - c.pos.toNat]?
        | none => row[t]?
  | [], row, t, _ => rfl
  | c :: cs, row, t, h => by
    rw [List.foldl_cons]
    have hc := h c (List.mem_cons_self _ _)
    have hw : (writeSliceI row c.pos (vf c)).length = row.length :=
      writeSliceI_length _ _ _ (by rw [hc.1]; exact hc.2)
    have hrec := foldWrite_getElem? vf cs (writeSliceI row c.pos (vf c)) t
      (fun c' hc' => by
        rw [hw]
        exact h c' (List.mem_cons_of_mem _ hc'))
    rw [hrec]
    cases hlc : lastCover cs t with
    | some c' => simp only [lastCover, hlc]
    | none =>
      simp only [lastCover, hlc]
      rw [writeSliceI_getElem? row c.pos (vf c) (by rw [hc.1]; exact hc.2) t]
      by_cases hcov : covers c t
      · rw [if_pos (by rw [hc.1]; exact hcov), if_pos hcov]
      · rw [if_neg (by rw [hc.1]; exact hcov), if_neg hcov]

/-- When the chunks tile `[a, b)`, the replayed row is literally the
concatenation of the chunk values over that window. -/
theorem foldWrite_tiling {α : Type} (vf : Chunk → List α) :
    ∀ (chunks : List Chunk) (row : List α) (a b : Int),
      Tiling chunks a b → 0 ≤ a → b ≤ (row.length : Int) →
      (∀ c ∈ chunks, (vf c).length = c.cnt) →
      chunks.foldl (fun r c => writeSliceI r c.pos (vf c)) row =
        row.take a.toNat ++ chunks.flatMap vf ++ row.drop b.toNat
  | [], row, a, b, ht, ha, hb, _ => by
    rcases ht with rfl
    simp [List.take_append_drop]
  | c :: cs, row, a, b, ht, ha, hb, hv => by
    obtain ⟨hpos, htl⟩ := ht
    have hab := Tiling.le htl
    have hvc : (vf c).length = c.cnt := hv c (List.mem_cons_self _ _)
    have hcb : a + (c.cnt : Int) ≤ (row.length : Int) := le_trans hab hb
    rw [List.foldl_cons]
    have hwrite : writeSliceI row c.pos (vf c) =
        row.take a.toNat ++ vf c ++ row.drop (a.toNat + c.cnt) := by
      rw [writeSliceI, if_neg (by omega), hpos, hvc]
    have hlt : (row.take a.toNat).length = a.toNat := by
      simp only [List.length_take]; omega
    have hrec := foldWrite_tiling vf cs (writeSliceI row c.pos (vf c))
      (a + c.cnt) b htl (by omega)
      (by rw [writeSliceI_length _ _ _ (by rw [hvc]; omega)]; exact hb)
      (fun c' hc' => hv c' (List.mem_cons_of_mem _ hc'))
    rw [hrec, hwrite]
    have h1 : (row.take a.toNat ++ vf c ++ row.drop (a.toNat + c.cnt)).take
        (a + (c.cnt : Int)).toNat = row.take a.toNat ++ vf c := by
      rw [List.take_left' (by rw [List.length_append, hlt, hvc]; omega)]
    have h2 : (row.take a.toNat ++ vf c ++ row.drop (a.toNat + c.cnt)).drop b.toNat =
        row.drop b.toNat := by
      have hP : (row.take a.toNat ++ vf c).length = a.toNat + c.cnt := by
        rw [List.length_append, hlt, hvc]
      have hsplit : b.toNat =
          (row.take a.toNat ++ vf c).length + (b.toNat - (a.toNat + c.cnt)) := by
        rw [hP]; omega
      rw [hsplit, List.drop_append, List.drop_drop]
      congr 1
      omega
    rw [h1, h2, List.flatMap_cons]
    simp [List.append_assoc]

/-! ### The pull step -/

theorem pullPhase_go {stream : List Sent} {lane : Option Lane} {nsid : Nat}
    {stream' : List Sent} {l : Lane} {nsid' : Nat} {ps : List Sent}
    (h : pullPhase stream lane nsid = .go stream' l nsid' ps) :
    (lane = some l ∧ 1 < l.ids.length ∧ stream' = stream ∧ nsid' = nsid ∧ ps = []) ∨
    (∃ s rest, stream = s :: rest ∧ stream' = rest ∧ l = ⟨s.ids, s.chars, nsid⟩ ∧
      nsid' = nsid + 1 ∧ ps = [s] ∧
      (∀ l₀, lane = some l₀ → l₀.ids.length ≤ 1)) := by
  cases lane with
  | some l₀ =>
    simp only [pullPhase] at h
    split at h
    · rename_i hlen
      injection h with h1 h2 h3 h4
      subst h1; subst h3; subst h4; subst h2
      exact Or.inl ⟨rfl, hlen, rfl, rfl, rfl⟩
    · rename_i hlen
      cases stream with
      | nil => exact absurd h (by simp)
      | cons s rest =>
        injection h with h1 h2 h3 h4
        subst h1; subst h2; subst h3; subst h4
        exact Or.inr ⟨s, rest, rfl, rfl, rfl, rfl, rfl,
          fun l₁ hl => by injection hl with hl; subst hl; omega⟩
  | none =>
    simp only [pullPhase] at h
    cases stream with
    | nil => exact absurd h (by simp)
    | cons s rest =>
      injection h with h1 h2 h3 h4
      subst h1; subst h2; subst h3; subst h4
      exact Or.inr ⟨s, rest, rfl, rfl, rfl, rfl, rfl, fun l₁ hl => by cases hl⟩

theorem pullPhase_exhausted_eq {stream : List Sent} {lane : Option Lane} {nsid : Nat}
    (h : pullPhase stream lane nsid = .exhausted) : stream = [] := by
  cases lane with
  | some l₀ =>
    simp only [pullPhase] at h
    split at h
    · exact absurd h (by simp)
    · cases stream with
      | nil => rfl
      | cons s rest => exact absurd h (by simp)
  | none =>
    simp only [pullPhase] at h
    cases stream with
    | nil => rfl
    | cons s rest => exact absurd h (by simp)

/-! ### Chunk well-formedness of any fill -/

/-- Every logged write is in bounds: the write never runs past `numSteps`,
and it copies at most `len - 1` tokens of its remainder. -/
theorem fillLaneF_wf (numSteps : Nat) (mwl : Option Nat) :
    ∀ (fuel : Nat) (stream : List Sent) (lane : Option Lane) (nsid : Nat) (pos : Int)
      (c : Chunk), c ∈ (fillLaneF numSteps mwl fuel stream lane nsid pos).chunks →
      c.pos + (c.cnt : Int) ≤ (numSteps : Int) ∧ c.pos < (numSteps : Int) ∧
      (c.cnt = 0 ∨ c.cnt + 1 ≤ c.ids.length)
  | 0, stream, lane, nsid, pos, c, hc => by simp [fillLaneF] at hc
  | fuel + 1, stream, lane, nsid, pos, c, hc => by
    rw [fillLaneF] at hc
    split at hc
    · rename_i hlt
      split at hc
      · simp at hc
      · rename_i stream' l nsid' ps heq
        dsimp only at hc
        rcases List.mem_cons.mp hc with rfl | hc'
        · refine ⟨?_, ?_, ?_⟩ <;> dsimp only <;> omega
        · exact fillLaneF_wf numSteps mwl fuel stream' _ nsid' _ c hc'
    · simp at hc

/-! ### The delivered-pairs accounting invariant -/

theorem deliveredPairs_cons (c : Chunk) (cs : List Chunk) :
    deliveredPairs (c :: cs) = (valsI c).zip (valsT c) ++ deliveredPairs cs := by
  simp [deliveredPairs]

/-- Conservation of next-token pairs: the pairs delivered by a fill,
followed by the pairs still pending in the final lane remainder, are
exactly the pairs pending in the initial remainder followed by the pairs
of every sentence pulled during the fill, in order.  (A remainder is only
discarded when it has at most one token left, i.e. no pending pairs.) -/
theorem fillLaneF_pairs (numSteps : Nat) (mwl : Option Nat) :
    ∀ (fuel : Nat) (stream : List Sent) (lane : Option Lane) (nsid : Nat) (pos : Int),
      deliveredPairs (fillLaneF numSteps mwl fuel stream lane nsid pos).chunks ++
        pendPairs (fillLaneF numSteps mwl fuel stream lane nsid pos).lane =
      pendPairs lane ++
        (fillLaneF numSteps mwl fuel stream lane nsid pos).pulls.flatMap
          (fun s => pairsOf s.ids)
  | 0, stream, lane, nsid, pos => by simp [fillLaneF, deliveredPairs]
  | fuel + 1, stream, lane, nsid, pos => by
    rw [fillLaneF]
    split
    · split
      · simp [deliveredPairs]
      · rename_i stream' l nsid' ps heq
        dsimp only
        have ih := fillLaneF_pairs numSteps mwl fuel stream'
          (some ⟨l.ids.drop (min ((l.ids.length : Int) - 1) ((numSteps : Int) - pos)).toNat,
            if mwl.isSome then l.chars.map
              (fun cs => cs.drop (min ((l.ids.length : Int) - 1) ((numSteps : Int) - pos)).toNat)
            else l.chars, l.sidx⟩)
          nsid' (pos + min ((l.ids.length : Int) - 1) ((numSteps : Int) - pos))
        rw [deliveredPairs_cons, List.append_assoc, ih, ← List.append_assoc]
        simp only [valsI, valsT, pendPairs]
        rw [pairsOf_split]
        rcases pullPhase_go heq with ⟨hl, -, -, -, rfl⟩ |
          ⟨s, rest, -, -, rfl, -, rfl, hshort⟩
        · subst hl
          simp [pendPairs]
        · have hpend : pendPairs lane = [] := by
            cases lane with
            | none => rfl
            | some l₀ =>
              simp only [pendPairs]
              exact pairsOf_short (hshort l₀ rfl)
          simp [hpend]
          exact hpend
    · simp [deliveredPairs]

/-! ### Distinct pull indices within one fill -/

/-- The first chunk a fill writes starts at the entry cursor, and comes
either from a freshly pulled sentence (`sidx = nsid`) or from a carried-in
remainder that still had at least two tokens. -/
theorem fillLaneF_head (numSteps : Nat) (mwl : Option Nat) (fuel : Nat)
    (stream : List Sent) (lane : Option Lane) (nsid : Nat) (pos : Int)
    (c₀ : Chunk) (cs : List Chunk)
    (h : (fillLaneF numSteps mwl fuel stream lane nsid pos).chunks = c₀ :: cs) :
    pos < (numSteps : Int) ∧ c₀.pos = pos ∧
    (c₀.sidx = nsid ∨ ∃ l, lane = some l ∧ 1 < l.ids.length ∧ c₀.sidx = l.sidx) := by
  cases fuel with
  | zero => simp [fillLaneF] at h
  | succ fuel =>
    rw [fillLaneF] at h
    split at h
    · rename_i hlt
      split at h
      · simp at h
      · rename_i stream' l nsid' ps heq
        dsimp only at h
        injection h with h1 h2
        subst h1
        refine ⟨hlt, rfl, ?_⟩
        rcases pullPhase_go heq with ⟨hl, hlen, -, -, -⟩ |
          ⟨s, rest, -, -, rfl, -, -, -⟩
        · exact Or.inr ⟨l, hl, hlen, rfl⟩
        · exact Or.inl rfl
    · simp at h

/-- Within a single fill, the ghost pull indices of the logged chunks are
strictly increasing: a sentence never produces two chunks in the same
batch row (the only way a remainder survives a write with more than one
token left is when the write reached `num_steps`, ending the row). -/
theorem fillLaneF_chain (numSteps : Nat) (mwl : Option Nat) :
    ∀ (fuel : Nat) (stream : List Sent) (lane : Option Lane) (nsid : Nat) (pos : Int),
      (∀ l, lane = some l → l.sidx < nsid) →
      List.Chain' (fun a b => a.sidx < b.sidx)
        (fillLaneF numSteps mwl fuel stream lane nsid pos).chunks ∧
      (∀ l', (fillLaneF numSteps mwl fuel stream lane nsid pos).lane = some l' →
        l'.sidx < (fillLaneF numSteps mwl fuel stream lane nsid pos).nsid) ∧
      nsid ≤ (fillLaneF numSteps mwl fuel stream lane nsid pos).nsid
  | 0, stream, lane, nsid, pos, hlane => by
    simp only [fillLaneF]
    exact ⟨List.chain'_nil, hlane, le_refl _⟩
  | fuel + 1, stream, lane, nsid, pos, hlane => by
    rw [fillLaneF]
    split
    · split
      · exact ⟨List.chain'_nil, hlane, le_refl _⟩
      · rename_i hlt stream' l nsid' ps heq
        dsimp only
        have hls : l.sidx < nsid' := by
          rcases pullPhase_go heq with ⟨hl, -, -, rfl, -⟩ |
            ⟨s, rest, -, -, rfl, rfl, -, -⟩
          · exact hlane l hl
          · exact Nat.lt_succ_self _
        have hlane' : ∀ l₂,
            (some (⟨l.ids.drop (min ((l.ids.length : Int) - 1)
                ((numSteps : Int) - pos)).toNat,
              if mwl.isSome then l.chars.map (fun cs => cs.drop
                (min ((l.ids.length : Int) - 1) ((numSteps : Int) - pos)).toNat)
              else l.chars, l.sidx⟩ : Lane)) = some l₂ → l₂.sidx < nsid' := by
          intro l₂ hh
          injection hh with hh
          subst hh
          exact hls
        obtain ⟨ihChain, ihLane, ihNsid⟩ := fillLaneF_chain numSteps mwl fuel stream'
          (some ⟨l.ids.drop (min ((l.ids.length : Int) - 1) ((numSteps : Int) - pos)).toNat,
            if mwl.isSome then l.chars.map (fun cs => cs.drop
              (min ((l.ids.length : Int) - 1) ((numSteps : Int) - pos)).toNat)
            else l.chars, l.sidx⟩)
          nsid' (pos + min ((l.ids.length : Int) - 1) ((numSteps : Int) - pos)) hlane'
        have hns : nsid ≤ nsid' := by
          rcases pullPhase_go heq with ⟨-, -, -, rfl, -⟩ |
            ⟨s, rest, -, -, -, rfl, -, -⟩
          · exact le_refl _
          · omega
        refine ⟨?_, ihLane, le_trans hns ihNsid⟩
        rw [List.chain'_cons']
        refine ⟨?_, ihChain⟩
        intro c₂ hc₂
        cases hh : (fillLaneF numSteps mwl fuel stream'
            (some ⟨l.ids.drop (min ((l.ids.length : Int) - 1)
                ((numSteps : Int) - pos)).toNat,
              if mwl.isSome then l.chars.map (fun cs => cs.drop
                (min ((l.ids.length : Int) - 1) ((numSteps : Int) - pos)).toNat)
              else l.chars, l.sidx⟩)
            nsid' (pos + min ((l.ids.length : Int) - 1)
              ((numSteps : Int) - pos))).chunks with
        | nil => rw [hh] at hc₂; simp at hc₂
        | cons c₂' cs₂ =>
          rw [hh] at hc₂
          simp only [List.head?_cons, Option.mem_def, Option.some.injEq] at hc₂
          subst hc₂
          obtain ⟨hlt2, hpos2, hsidx2⟩ := fillLaneF_head numSteps mwl fuel stream'
            _ nsid' _ c₂' cs₂ hh
          rcases hsidx2 with h2 | ⟨l₂, hl₂, hlen₂, hs₂⟩
          · show l.sidx < c₂'.sidx
            rw [h2]
            exact hls
          · injection hl₂ with hl₂
            subst hl₂
            exfalso
            simp only [List.length_drop] at hlen₂
            omega
    · exact ⟨List.chain'_nil, hlane, le_refl _⟩

/-! ### Termination, completeness, tiling and progress of the fill loop -/

/-- The cursor never exceeds `num_steps`, and a fill that neither ran out
of fuel nor hit `StopIteration` ends exactly at `num_steps` (a complete
row). -/
theorem fillLaneF_complete (numSteps : Nat) (mwl : Option Nat) :
    ∀ (fuel : Nat) (stream : List Sent) (lane : Option Lane) (nsid : Nat) (pos : Int),
      pos ≤ (numSteps : Int) →
      ((fillLaneF numSteps mwl fuel stream lane nsid pos).fuelOut = false →
        (fillLaneF numSteps mwl fuel stream lane nsid pos).exhausted = false →
        (fillLaneF numSteps mwl fuel stream lane nsid pos).pos = (numSteps : Int)) ∧
      (fillLaneF numSteps mwl fuel stream lane nsid pos).pos ≤ (numSteps : Int)
  | 0, stream, lane, nsid, pos, hpn => by
    simp only [fillLaneF]
    exact ⟨fun h => absurd h (by simp), hpn⟩
  | fuel + 1, stream, lane, nsid, pos, hpn => by
    rw [fillLaneF]
    split
    · rename_i hlt
      split
      · exact ⟨fun _ h => absurd h (by simp), hpn⟩
      · rename_i stream' l nsid' ps heq
        dsimp only
        exact fillLaneF_complete numSteps mwl fuel stream' _ nsid' _ (by omega)
    · rename_i hge
      dsimp only
      exact ⟨fun _ _ => by omega, hpn⟩

/-- `fillFuel` iterations always suffice: each loop iteration either pulls
a sentence off the stream (the cursor can drop by at most one then) or
strictly advances the cursor. -/
theorem fillLaneF_noFuelOut (numSteps : Nat) (mwl : Option Nat) :
    ∀ (fuel : Nat) (stream : List Sent) (lane : Option Lane) (nsid : Nat) (pos : Int),
      2 * stream.length + ((numSteps : Int) - pos).toNat + 1 ≤ fuel →
      (fillLaneF numSteps mwl fuel stream lane nsid pos).fuelOut = false
  | 0, stream, lane, nsid, pos, hfuel => by omega
  | fuel + 1, stream, lane, nsid, pos, hfuel => by
    rw [fillLaneF]
    split
    · rename_i hlt
      split
      · rfl
      · rename_i stream' l nsid' ps heq
        dsimp only
        apply fillLaneF_noFuelOut numSteps mwl fuel
        rcases pullPhase_go heq with ⟨-, hlen, rfl, -, -⟩ |
          ⟨s, rest, rfl, rfl, -, -, -, -⟩
        · omega
        · simp only [List.length_cons] at hfuel
          omega
    · rfl

/-- `fillLane` (the loop with its canonical fuel) never runs out of fuel. -/
theorem fillLane_noFuelOut (numSteps : Nat) (mwl : Option Nat) (stream : List Sent)
    (lane : Option Lane) (nsid : Nat) (pos : Int) :
    (fillLane numSteps mwl stream lane nsid pos).fuelOut = false :=
  fillLaneF_noFuelOut numSteps mwl _ stream lane nsid pos (le_refl _)

/-- With no zero-token sentences around, the writes of one fill tile the
row consecutively from the entry cursor to the final cursor: the cursor
never moves backwards and no cell is written twice. -/
theorem fillLaneF_tiling (numSteps : Nat) (mwl : Option Nat) :
    ∀ (fuel : Nat) (stream : List Sent) (lane : Option Lane) (nsid : Nat) (pos : Int),
      (∀ s ∈ stream, s.ids ≠ []) → (∀ l, lane = some l → l.ids ≠ []) →
      0 ≤ pos → pos ≤ (numSteps : Int) →
      Tiling (fillLaneF numSteps mwl fuel stream lane nsid pos).chunks pos
        (fillLaneF numSteps mwl fuel stream lane nsid pos).pos ∧
      pos ≤ (fillLaneF numSteps mwl fuel stream lane nsid pos).pos ∧
      (∀ l', (fillLaneF numSteps mwl fuel stream lane nsid pos).lane = some l' →
        l'.ids ≠ []) ∧
      (∀ s ∈ (fillLaneF numSteps mwl fuel stream lane nsid pos).stream, s.ids ≠ [])
  | 0, stream, lane, nsid, pos, hS, hL, h0, hpn => by
    simp only [fillLaneF]
    exact ⟨rfl, le_refl _, hL, hS⟩
  | fuel + 1, stream, lane, nsid, pos, hS, hL, h0, hpn => by
    rw [fillLaneF]
    split
    · rename_i hlt
      split
      · exact ⟨rfl, le_refl _, hL, hS⟩
      · rename_i stream' l nsid' ps heq
        dsimp only
        have hlne : l.ids ≠ [] := by
          rcases pullPhase_go heq with ⟨hl, hlen, -, -, -⟩ |
            ⟨s, rest, hst, -, rfl, -, -, -⟩
          · intro hnil
            rw [hnil] at hlen
            simp at hlen
          · exact hS s (hst ▸ List.mem_cons_self _ _)
        have hlen1 : 1 ≤ l.ids.length := by
          cases hids : l.ids with
          | nil => exact absurd hids hlne
          | cons a as => simp
        have hS' : ∀ s ∈ stream', s.ids ≠ [] := by
          rcases pullPhase_go heq with ⟨-, -, rfl, -, -⟩ |
            ⟨s, rest, hst, rfl, -, -, -, -⟩
          · exact hS
          · exact fun s₂ hs₂ => hS s₂ (hst ▸ List.mem_cons_of_mem _ hs₂)
        have hm0 : 0 ≤ min ((l.ids.length : Int) - 1) ((numSteps : Int) - pos) := by
          omega
        have hL' : ∀ l₂, (some (⟨l.ids.drop (min ((l.ids.length : Int) - 1)
              ((numSteps : Int) - pos)).toNat,
            if mwl.isSome then l.chars.map (fun cs => cs.drop
              (min ((l.ids.length : Int) - 1) ((numSteps : Int) - pos)).toNat)
            else l.chars, l.sidx⟩ : Lane)) = some l₂ → l₂.ids ≠ [] := by
          intro l₂ hh
          injection hh with hh
          subst hh
          simp only [ne_eq]
          intro hnil
          have := congrArg List.length hnil
          simp only [List.length_drop, List.length_nil] at this
          omega
        obtain ⟨ihT, ihLe, ihLane, ihStream⟩ := fillLaneF_tiling numSteps mwl fuel
          stream'
          (some ⟨l.ids.drop (min ((l.ids.length : Int) - 1) ((numSteps : Int) - pos)).toNat,
            if mwl.isSome then l.chars.map (fun cs => cs.drop
              (min ((l.ids.length : Int) - 1) ((numSteps : Int) - pos)).toNat)
            else l.chars, l.sidx⟩)
          nsid' (pos + min ((l.ids.length : Int) - 1) ((numSteps : Int) - pos))
          hS' hL' (by omega) (by omega)
        refine ⟨⟨rfl, ?_⟩, by omega, ihLane, ihStream⟩
        have hcast : ((min ((l.ids.length : Int) - 1)
            ((numSteps : Int) - pos)).toNat : Int) =
            min ((l.ids.length : Int) - 1) ((numSteps : Int) - pos) := by
          omega
        rw [hcast]
        exact ihT
    · exact ⟨rfl, le_refl _, hL, hS⟩

/-- Under the "every sentence has at least two tokens" hypothesis, every
iteration writes at least one token (strict cursor progress), so the loop
runs at most `num_steps - pos` write iterations. -/
theorem fillLaneF_progress (numSteps : Nat) (mwl : Option Nat) :
    ∀ (fuel : Nat) (stream : List Sent) (lane : Option Lane) (nsid : Nat) (pos : Int),
      (∀ s ∈ stream, 2 ≤ s.ids.length) → (∀ l, lane = some l → 1 ≤ l.ids.length) →
      0 ≤ pos → pos ≤ (numSteps : Int) →
      Tiling (fillLaneF numSteps mwl fuel stream lane nsid pos).chunks pos
        (fillLaneF numSteps mwl fuel stream lane nsid pos).pos ∧
      (∀ c ∈ (fillLaneF numSteps mwl fuel stream lane nsid pos).chunks, 1 ≤ c.cnt) ∧
      pos ≤ (fillLaneF numSteps mwl fuel stream lane nsid pos).pos ∧
      (fillLaneF numSteps mwl fuel stream lane nsid pos).chunks.length ≤
        ((numSteps : Int) - pos).toNat ∧
      (∀ l', (fillLaneF numSteps mwl fuel stream lane nsid pos).lane = some l' →
        1 ≤ l'.ids.length) ∧
      (∀ s ∈ (fillLaneF numSteps mwl fuel stream lane nsid pos).stream,
        2 ≤ s.ids.length)
  | 0, stream, lane, nsid, pos, hS, hL, h0, hpn => by
    simp only [fillLaneF]
    exact ⟨rfl, by simp, le_refl _, by simp, hL, hS⟩
  | fuel + 1, stream, lane, nsid, pos, hS, hL, h0, hpn => by
    rw [fillLaneF]
    split
    · rename_i hlt
      split
      · exact ⟨rfl, by simp, le_refl _, by simp, hL, hS⟩
      · rename_i stream' l nsid' ps heq
        dsimp only
        have hlen2 : 2 ≤ l.ids.length := by
          rcases pullPhase_go heq with ⟨hl, hlen, -, -, -⟩ |
            ⟨s, rest, hst, -, rfl, -, -, -⟩
          · omega
          · exact hS s (hst ▸ List.mem_cons_self _ _)
        have hS' : ∀ s ∈ stream', 2 ≤ s.ids.length := by
          rcases pullPhase_go heq with ⟨-, -, rfl, -, -⟩ |
            ⟨s, rest, hst, rfl, -, -, -, -⟩
          · exact hS
          · exact fun s₂ hs₂ => hS s₂ (hst ▸ List.mem_cons_of_mem _ hs₂)
        have hm1 : 1 ≤ min ((l.ids.length : Int) - 1) ((numSteps : Int) - pos) := by
          omega
        have hL' : ∀ l₂, (some (⟨l.ids.drop (min ((l.ids.length : Int) - 1)
              ((numSteps : Int) - pos)).toNat,
            if mwl.isSome then l.chars.map (fun cs => cs.drop
              (min ((l.ids.length : Int) - 1) ((numSteps : Int) - pos)).toNat)
            else l.chars, l.sidx⟩ : Lane)) = some l₂ → 1 ≤ l₂.ids.length := by
          intro l₂ hh
          injection hh with hh
          subst hh
          simp only [List.length_drop]
          omega
        obtain ⟨ihT, ihCnt, ihLe, ihLen, ihLane, ihStream⟩ :=
          fillLaneF_progress numSteps mwl fuel stream'
            (some ⟨l.ids.drop (min ((l.ids.length : Int) - 1)
                ((numSteps : Int) - pos)).toNat,
              if mwl.isSome then l.chars.map (fun cs => cs.drop
                (min ((l.ids.length : Int) - 1) ((numSteps : Int) - pos)).toNat)
              else l.chars, l.sidx⟩)
            nsid' (pos + min ((l.ids.length : Int) - 1) ((numSteps : Int) - pos))
            hS' hL' (by omega) (by omega)
        have hcast : ((min ((l.ids.length : Int) - 1)
            ((numSteps : Int) - pos)).toNat : Int) =
            min ((l.ids.length : Int) - 1) ((numSteps : Int) - pos) := by
          omega
        refine ⟨⟨rfl, by rw [hcast]; exact ihT⟩, ?_, by omega, ?_, ihLane, ihStream⟩
        · intro c hc
          rcases List.mem_cons.mp hc with rfl | hc'
          · dsimp only
            omega
          · exact ihCnt c hc'
        · simp only [List.length_cons]
          omega
    · exact ⟨rfl, by simp, le_refl _, by simp, hL, hS⟩

/-! ### Lemmas about `fillLanes` (the per-batch lane loop) -/

theorem fillLanes_length (numSteps : Nat) (mwl : Option Nat) :
    ∀ (slots : List LaneSlot) (stream : List Sent),
      (fillLanes numSteps mwl slots stream).results.length = slots.length
  | [], _ => rfl
  | slot :: rest, stream => by
    simp only [fillLanes, List.length_cons]
    rw [fillLanes_length numSteps mwl rest]

theorem fillLanes_exhausted_false (numSteps : Nat) (mwl : Option Nat) :
    ∀ (slots : List LaneSlot) (stream : List Sent),
      (fillLanes numSteps mwl slots stream).exhausted = false →
      ∀ r ∈ (fillLanes numSteps mwl slots stream).results, r.exhausted = false
  | [], _, _, r, hr => by simp [fillLanes] at hr
  | slot :: rest, stream, hex, r, hr => by
    simp only [fillLanes, Bool.or_eq_false_iff] at hex
    simp only [fillLanes, List.mem_cons] at hr
    rcases hr with rfl | hr'
    · exact hex.1
    · exact fillLanes_exhausted_false numSteps mwl rest _ hex.2 r hr'

theorem fillLanes_chain (numSteps : Nat) (mwl : Option Nat) :
    ∀ (slots : List LaneSlot) (stream : List Sent),
      (∀ slot ∈ slots, ∀ l, slot.lane = some l → l.sidx < slot.nsid) →
      ∀ r ∈ (fillLanes numSteps mwl slots stream).results,
        List.Chain' (fun a b => a.sidx < b.sidx) r.chunks ∧
        (∀ l', r.lane = some l' → l'.sidx < r.nsid)
  | [], _, _, r, hr => by simp [fillLanes] at hr
  | slot :: rest, stream, hinv, r, hr => by
    simp only [fillLanes, List.mem_cons] at hr
    rcases hr with rfl | hr'
    · have := fillLaneF_chain numSteps mwl (fillFuel numSteps stream 0) stream
        slot.lane slot.nsid 0 (hinv slot (List.mem_cons_self _ _))
      exact ⟨this.1, this.2.1⟩
    · exact fillLanes_chain numSteps mwl rest _
        (fun s hs => hinv s (List.mem_cons_of_mem _ hs)) r hr'

theorem fillLanes_wf (numSteps : Nat) (mwl : Option Nat) :
    ∀ (slots : List LaneSlot) (stream : List Sent),
      ∀ r ∈ (fillLanes numSteps mwl slots stream).results, ∀ c ∈ r.chunks,
        c.pos + (c.cnt : Int) ≤ (numSteps : Int) ∧ c.pos < (numSteps : Int) ∧
        (c.cnt = 0 ∨ c.cnt + 1 ≤ c.ids.length)
  | [], _, r, hr => by simp [fillLanes] at hr
  | slot :: rest, stream, r, hr => by
    simp only [fillLanes, List.mem_cons] at hr
    rcases hr with rfl | hr'
    · exact fun c hc => fillLaneF_wf numSteps mwl _ stream slot.lane slot.nsid 0 c hc
    · exact fillLanes_wf numSteps mwl rest _ r hr'

theorem fillLanes_complete (numSteps : Nat) (mwl : Option Nat) :
    ∀ (slots : List LaneSlot) (stream : List Sent),
      ∀ r ∈ (fillLanes numSteps mwl slots stream).results,
        r.exhausted = false → r.pos = (numSteps : Int)
  | [], _, r, hr => by simp [fillLanes] at hr
  | slot :: rest, stream, r, hr => by
    simp only [fillLanes, List.mem_cons] at hr
    rcases hr with rfl | hr'
    · intro hex
      exact (fillLaneF_complete numSteps mwl _ stream slot.lane slot.nsid 0
        (by exact_mod_cast Nat.zero_le numSteps)).1
        (fillLane_noFuelOut numSteps mwl stream slot.lane slot.nsid 0) hex
    · exact fillLanes_complete numSteps mwl rest _ r hr'

theorem fillLanes_nonempty (numSteps : Nat) (mwl : Option Nat) :
    ∀ (slots : List LaneSlot) (stream : List Sent),
      (∀ s ∈ stream, s.ids ≠ []) →
      (∀ slot ∈ slots, ∀ l, slot.lane = some l → l.ids ≠ []) →
      (∀ s ∈ (fillLanes numSteps mwl slots stream).stream, s.ids ≠ []) ∧
      (∀ r ∈ (fillLanes numSteps mwl slots stream).results,
        Tiling r.chunks 0 r.pos ∧ (∀ l', r.lane = some l' → l'.ids ≠ []))
  | [], stream, hS, _ => ⟨hS, by simp [fillLanes]⟩
  | slot :: rest, stream, hS, hL => by
    have hhead := fillLaneF_tiling numSteps mwl (fillFuel numSteps stream 0) stream
      slot.lane slot.nsid 0 hS (hL slot (List.mem_cons_self _ _)) (le_refl _)
      (by exact_mod_cast Nat.zero_le numSteps)
    have hrec := fillLanes_nonempty numSteps mwl rest
      (fillLane numSteps mwl stream slot.lane slot.nsid 0).stream
      hhead.2.2.2 (fun s hs => hL s (List.mem_cons_of_mem _ hs))
    refine ⟨hrec.1, ?_⟩
    intro r hr
    simp only [fillLanes, List.mem_cons] at hr
    rcases hr with rfl | hr'
    · exact ⟨hhead.1, hhead.2.2.1⟩
    · exact hrec.2 r hr'

/-- Indexed form: lane `i` of a batch is filled from slot `i`, and the
pairs bookkeeping of `fillLaneF_pairs` holds lane by lane. -/
theorem fillLanes_idx (numSteps : Nat) (mwl : Option Nat) :
    ∀ (slots : List LaneSlot) (stream : List Sent) (i : Nat) (slot : LaneSlot),
      slots.get? i = some slot →
      ∃ r, (fillLanes numSteps mwl slots stream).results.get? i = some r ∧
        deliveredPairs r.chunks ++ pendPairs r.lane =
          pendPairs slot.lane ++ r.pulls.flatMap (fun s => pairsOf s.ids)
  | [], _, i, slot, h => by simp at h
  | slot₀ :: rest, stream, 0, slot, h => by
    simp only [List.get?_cons_zero, Option.some.injEq] at h
    subst h
    refine ⟨fillLane numSteps mwl stream slot₀.lane slot₀.nsid 0, ?_, ?_⟩
    · simp [fillLanes]
    · exact fillLaneF_pairs numSteps mwl _ stream slot₀.lane slot₀.nsid 0
  | slot₀ :: rest, stream, i + 1, slot, h => by
    simp only [List.get?_cons_succ] at h
    obtain ⟨r, hr, hp⟩ := fillLanes_idx numSteps mwl rest
      (fillLane numSteps mwl stream slot₀.lane slot₀.nsid 0).stream i slot h
    exact ⟨r, by simpa [fillLanes] using hr, hp⟩

/-! ### Lemmas about `getBatchesAux` (the batch generator loop) -/

/-- Structure of every emitted batch: its rows are the replay of its ghost
write log, each lane's log has strictly increasing pull indices and only
in-bounds writes, and every lane was filled completely (`cur_pos` ended at
`num_steps`) — an exhausted assembly is never emitted. -/
theorem getBatchesAux_spec (numSteps : Nat) (mwl : Option Nat) :
    ∀ (n : Nat) (stream : List Sent) (slots : List LaneSlot),
      (∀ slot ∈ slots, ∀ l, slot.lane = some l → l.sidx < slot.nsid) →
      ∀ b ∈ getBatchesAux numSteps mwl n stream slots,
        b.token_ids = b.laneChunks.map (rowIds numSteps) ∧
        b.next_token_id = b.laneChunks.map (rowTargets numSteps) ∧
        (∀ cl ∈ b.laneChunks,
          List.Chain' (fun a b => a.sidx < b.sidx) cl ∧
          ∀ c ∈ cl, c.pos + (c.cnt : Int) ≤ (numSteps : Int) ∧
            c.pos < (numSteps : Int) ∧ (c.cnt = 0 ∨ c.cnt + 1 ≤ c.ids.length)) ∧
        (∀ p ∈ b.finalPos, p = (numSteps : Int))
  | 0, stream, slots, hinv, b, hb => by simp [getBatchesAux] at hb
  | n + 1, stream, slots, hinv, b, hb => by
    rw [getBatchesAux] at hb
    split at hb
    · simp at hb
    · rename_i hex
      rcases List.mem_cons.mp hb with rfl | hb'
      · refine ⟨?_, ?_, ?_, ?_⟩
        · simp [mkBatch, List.map_map]
        · simp [mkBatch, List.map_map]
        · intro cl hcl
          simp only [mkBatch, List.mem_map] at hcl
          obtain ⟨r, hr, rfl⟩ := hcl
          exact ⟨(fillLanes_chain numSteps mwl slots stream hinv r hr).1,
            fillLanes_wf numSteps mwl slots stream r hr⟩
        · intro p hp
          simp only [mkBatch, List.mem_map] at hp
          obtain ⟨r, hr, rfl⟩ := hp
          exact fillLanes_complete numSteps mwl slots stream r hr
            (fillLanes_exhausted_false numSteps mwl slots stream
              (by simpa using hex) r hr)
      · refine getBatchesAux_spec numSteps mwl n _ _ ?_ b hb'
        intro slot hslot l hl
        simp only [List.mem_map] at hslot
        obtain ⟨r, hr, rfl⟩ := hslot
        exact (fillLanes_chain numSteps mwl slots stream hinv r hr).2 l hl

/-! ### Rows of a complete batch are exactly the delivered tokens -/

theorem vals_length_of_wf {c : Chunk} (h : c.cnt = 0 ∨ c.cnt + 1 ≤ c.ids.length) :
    (valsI c).length = c.cnt ∧ (valsT c).length = c.cnt := by
  simp only [valsI, valsT, List.length_take, List.length_drop]
  omega

theorem zip_flatMap_eq {α β : Type} (f : Chunk → List α) (g : Chunk → List β) :
    ∀ (cs : List Chunk), (∀ c ∈ cs, (f c).length = (g c).length) →
      (cs.flatMap f).zip (cs.flatMap g) = cs.flatMap (fun c => (f c).zip (g c))
  | [], _ => rfl
  | c :: cs, h => by
    simp only [List.flatMap_cons]
    rw [List.zip_append (h c (List.mem_cons_self _ _)),
      zip_flatMap_eq f g cs (fun c' hc' => h c' (List.mem_cons_of_mem _ hc'))]

/-- For a completely filled lane (chunks tile `[0, num_steps)`), the
per-position `(token_ids, next_token_id)` pairs of the replayed rows are
exactly the pairs delivered by the chunks, in order. -/
theorem rowPairs_eq_delivered (numSteps : Nat) (chunks : List Chunk)
    (hT : Tiling chunks 0 (numSteps : Int))
    (hwf : ∀ c ∈ chunks, c.cnt = 0 ∨ c.cnt + 1 ≤ c.ids.length) :
    (rowIds numSteps chunks).zip (rowTargets numSteps chunks) =
      deliveredPairs chunks := by
  have hrow : ∀ (vf : Chunk → List Nat), (∀ c ∈ chunks, (vf c).length = c.cnt) →
      chunks.foldl (fun row c => writeSliceI row c.pos (vf c))
        (List.replicate numSteps (0 : Nat)) = chunks.flatMap vf := by
    intro vf hv
    have := foldWrite_tiling vf chunks (List.replicate numSteps (0 : Nat)) 0
      (numSteps : Int) hT (le_refl _) (by simp) hv
    rw [this]
    have hdrop : (List.replicate numSteps (0 : Nat)).drop ((numSteps : Int)).toNat
        = [] := by
      rw [Int.toNat_natCast]
      apply List.drop_eq_nil_of_le
      simp
    rw [hdrop]
    simp
  rw [rowIds, rowTargets,
    hrow valsI (fun c hc => (vals_length_of_wf (hwf c hc)).1),
    hrow valsT (fun c hc => (vals_length_of_wf (hwf c hc)).2),
    zip_flatMap_eq valsI valsT chunks
      (fun c hc => by
        rw [(vals_length_of_wf (hwf c hc)).1, (vals_length_of_wf (hwf c hc)).2])]
  rfl

/-! ### The cross-batch prefix invariant (lane transcripts) -/

/-- Lane `i`'s `(token, target)` pairs concatenated over all emitted
batches form a prefix of the pairs of the sentences pulled for that lane,
in pull order — provided no pulled sentence is empty. -/
theorem getBatchesAux_prefix (numSteps : Nat) (mwl : Option Nat) :
    ∀ (n : Nat) (stream : List Sent) (slots : List LaneSlot),
      (∀ s ∈ stream, s.ids ≠ []) →
      (∀ slot ∈ slots, ∀ l, slot.lane = some l → l.ids ≠ []) →
      ∀ i, ∃ rest,
        rowPairsOf (getBatchesAux numSteps mwl n stream slots) i ++ rest =
          pendPairs (slots.getD i ⟨none, 0⟩).lane ++
            (lanePullsOf (getBatchesAux numSteps mwl n stream slots) i).flatMap
              (fun s => pairsOf s.ids)
  | 0, stream, slots, hS, hL, i => by
    refine ⟨pendPairs (slots.getD i ⟨none, 0⟩).lane, ?_⟩
    simp [getBatchesAux, rowPairsOf, lanePullsOf]
  | n + 1, stream, slots, hS, hL, i => by
    rw [getBatchesAux]
    split
    · refine ⟨pendPairs (slots.getD i ⟨none, 0⟩).lane, ?_⟩
      simp [rowPairsOf, lanePullsOf]
    · rename_i hex
      have hlen := fillLanes_length numSteps mwl slots stream
      have hne := fillLanes_nonempty numSteps mwl slots stream hS hL
      have hih := getBatchesAux_prefix numSteps mwl n
        (fillLanes numSteps mwl slots stream).stream
        ((fillLanes numSteps mwl slots stream).results.map
          (fun r => ⟨r.lane, r.nsid⟩))
        hne.1
        (by
          intro slot hslot l hl
          simp only [List.mem_map] at hslot
          obtain ⟨r, hr, rfl⟩ := hslot
          exact (hne.2 r hr).2 l hl)
        i
      obtain ⟨rest', hrest'⟩ := hih
      rcases Nat.lt_or_ge i slots.length with hi | hi
      · -- lane i exists
        obtain ⟨slot, hslot⟩ : ∃ slot, slots.get? i = some slot := by
          rw [List.get?_eq_getElem?]
          exact ⟨slots[i], by simp⟩
        obtain ⟨r, hr, hp⟩ := fillLanes_idx numSteps mwl slots stream i slot hslot
        have hrmem : r ∈ (fillLanes numSteps mwl slots stream).results :=
          List.get?_mem hr
        have hrex : r.exhausted = false :=
          fillLanes_exhausted_false numSteps mwl slots stream (by simpa using hex)
            r hrmem
        have hrpos : r.pos = (numSteps : Int) :=
          fillLanes_complete numSteps mwl slots stream r hrmem hrex
        have hT : Tiling r.chunks 0 (numSteps : Int) := by
          rw [← hrpos]
          exact (hne.2 r hrmem).1
        have hwf := fillLanes_wf numSteps mwl slots stream r hrmem
        have hrows := rowPairs_eq_delivered numSteps r.chunks hT
          (fun c hc => (hwf c hc).2.2)
        have hr' := hr
        rw [List.get?_eq_getElem?] at hr'
        have hslotE := hslot
        rw [List.get?_eq_getElem?] at hslotE
        -- row and pull projections of the head batch
        have htok : (mkBatch numSteps mwl
            (fillLanes numSteps mwl slots stream).results).token_ids.getD i [] =
            rowIds numSteps r.chunks := by
          simp only [mkBatch, List.getD_eq_getElem?_getD, List.getElem?_map,
            hr', Option.map_some', Option.getD_some]
        have htgt : (mkBatch numSteps mwl
            (fillLanes numSteps mwl slots stream).results).next_token_id.getD i [] =
            rowTargets numSteps r.chunks := by
          simp only [mkBatch, List.getD_eq_getElem?_getD, List.getElem?_map,
            hr', Option.map_some', Option.getD_some]
        have hpull : (mkBatch numSteps mwl
            (fillLanes numSteps mwl slots stream).results).lanePulls.getD i [] =
            r.pulls := by
          simp only [mkBatch, List.getD_eq_getElem?_getD, List.getElem?_map,
            hr', Option.map_some', Option.getD_some]
        have hslot' : (((fillLanes numSteps mwl slots stream).results.map
            (fun r => (⟨r.lane, r.nsid⟩ : LaneSlot))).getD i ⟨none, 0⟩) =
            ⟨r.lane, r.nsid⟩ := by
          simp only [List.getD_eq_getElem?_getD, List.getElem?_map,
            hr', Option.map_some', Option.getD_some]
        have hpend0 : pendPairs (slots.getD i ⟨none, 0⟩).lane =
            pendPairs slot.lane := by
          congr 1
          rw [List.getD_eq_getElem?_getD, hslotE, Option.getD_some]
        refine ⟨rest', ?_⟩
        rw [rowPairsOf, List.flatMap_cons, ← rowPairsOf, lanePullsOf,
          List.flatMap_cons, ← lanePullsOf, List.flatMap_append]
        rw [hslot'] at hrest'
        dsimp only at hrest'
        rw [hpull, hpend0]
        rw [show rowPairs (mkBatch numSteps mwl
            (fillLanes numSteps mwl slots stream).results) i =
            deliveredPairs r.chunks from by rw [rowPairs, htok, htgt, hrows]]
        rw [List.append_assoc, hrest', ← List.append_assoc, hp,
          List.append_assoc]
      · -- lane i out of range: everything is empty
        have htok : (mkBatch numSteps mwl
            (fillLanes numSteps mwl slots stream).results).token_ids.getD i [] =
            [] := by
          apply List.getD_eq_default
          simp only [mkBatch, List.length_map]
          omega
        have hpull : (mkBatch numSteps mwl
            (fillLanes numSteps mwl slots stream).results).lanePulls.getD i [] =
            [] := by
          apply List.getD_eq_default
          simp only [mkBatch, List.length_map]
          omega
        have hslot' : (((fillLanes numSteps mwl slots stream).results.map
            (fun r => (⟨r.lane, r.nsid⟩ : LaneSlot))).getD i ⟨none, 0⟩) =
            (⟨none, 0⟩ : LaneSlot) := by
          apply List.getD_eq_default
          simp only [List.length_map]
          omega
        have hpend0 : pendPairs (slots.getD i ⟨none, 0⟩).lane = [] := by
          rw [List.getD_eq_default _ _ (by omega)]
          rfl
        refine ⟨rest', ?_⟩
        rw [rowPairsOf, List.flatMap_cons, ← rowPairsOf, lanePullsOf,
          List.flatMap_cons, ← lanePullsOf, List.flatMap_append]
        rw [hslot'] at hrest'
        dsimp only at hrest'
        rw [hpull, hpend0, rowPairs, htok]
        simp only [List.zip_nil_left, List.nil_append]
        rw [hrest']
        simp
        rfl

/-! ### Uniqueness of the covering chunk for a pull index -/

theorem pairwise_sidx_unique : ∀ {cs : List Chunk},
    List.Pairwise (fun a b => a.sidx < b.sidx) cs →
    ∀ c ∈ cs, ∀ c' ∈ cs, c.sidx = c'.sidx → c = c'
  | [], _, c, hc, _, _, _ => absurd hc (by simp)
  | a :: tail, hp, c, hc, c', hc', heq => by
    obtain ⟨ha, htail⟩ := List.pairwise_cons.mp hp
    rcases List.mem_cons.mp hc with rfl | hc2
    · rcases List.mem_cons.mp hc' with rfl | hc2'
      · rfl
      · exact absurd heq (by have := ha c' hc2'; omega)
    · rcases List.mem_cons.mp hc' with rfl | hc2'
      · exact absurd heq (by have := ha c hc2; omega)
      · exact pairwise_sidx_unique htail c hc2 c' hc2' heq

theorem chain_sidx_pairwise {cs : List Chunk}
    (h : List.Chain' (fun a b => a.sidx < b.sidx) cs) :
    List.Pairwise (fun a b => a.sidx < b.sidx) cs := by
  haveI : IsTrans Chunk (fun a b => a.sidx < b.sidx) :=
    ⟨fun _ _ _ h1 h2 => Nat.lt_trans h1 h2⟩
  exact List.chain'_iff_pairwise.mp h

/-! ## Claims -/

/-- C1 (confirmed).  For every batch emitted by `_get_batch`, every lane
`i` and every position `t` with `t + 1 < num_steps`, if positions `t` and
`t + 1` were filled from the same source sentence (equal provenance, as
recorded by the write log — last write wins, as in numpy), then
`next_token_id[i, t] = token_ids[i, t + 1]`. -/
theorem c1_next_token_shift
    (batchSize numSteps : Nat) (mwl : Option Nat) (n : Nat) (stream : List Sent)
    (b : Batch) (hb : b ∈ getBatches batchSize numSteps mwl n stream)
    (i t k : Nat) (ht : t + 1 < numSteps)
    (h1 : provAt (b.laneChunks.getD i []) t = some k)
    (h2 : provAt (b.laneChunks.getD i []) (t + 1) = some k) :
    (b.next_token_id.getD i []).getD t 0 = (b.token_ids.getD i []).getD (t + 1) 0 := by
  rw [getBatches] at hb
  obtain ⟨htok, htgt, hcl, -⟩ := getBatchesAux_spec numSteps mwl n stream
    (List.replicate batchSize ⟨none, 0⟩)
    (fun slot hslot l hl => by
      rw [List.eq_of_mem_replicate hslot] at hl
      cases hl)
    b hb
  rcases hlc1 : lastCover (b.laneChunks.getD i []) t with - | c
  · rw [provAt, hlc1] at h1
    cases h1
  rcases hlc2 : lastCover (b.laneChunks.getD i []) (t + 1) with - | c'
  · rw [provAt, hlc2] at h2
    cases h2
  rw [provAt, hlc1, Option.map_some'] at h1
  rw [provAt, hlc2, Option.map_some'] at h2
  injection h1 with h1
  injection h2 with h2
  rcases Nat.lt_or_ge i b.laneChunks.length with hi | hi
  swap
  · rw [List.getD_eq_default _ _ hi] at hlc1
    cases hlc1
  have hclmem : b.laneChunks.getD i [] ∈ b.laneChunks := by
    rw [List.getD_eq_getElem _ _ hi]
    exact List.getElem_mem hi
  obtain ⟨hchain, hwf⟩ := hcl _ hclmem
  obtain ⟨hcmem, hccov⟩ := lastCover_mem hlc1
  obtain ⟨hcmem', hccov'⟩ := lastCover_mem hlc2
  have hcc : c = c' :=
    pairwise_sidx_unique (chain_sidx_pairwise hchain) c hcmem c' hcmem'
      (by rw [h1, h2])
  subst hcc
  -- the rows are replays of this chunk list
  have hrowIdx : b.token_ids.getD i [] = rowIds numSteps (b.laneChunks.getD i []) := by
    rw [htok, List.getD_eq_getElem _ _ (by rw [List.length_map]; exact hi),
      List.getElem_map, List.getD_eq_getElem _ _ hi]
  have hrowTgt : b.next_token_id.getD i [] =
      rowTargets numSteps (b.laneChunks.getD i []) := by
    rw [htgt, List.getD_eq_getElem _ _ (by rw [List.length_map]; exact hi),
      List.getElem_map, List.getD_eq_getElem _ _ hi]
  have hfold : ∀ (vf : Chunk → List Nat), (∀ c₂ ∈ b.laneChunks.getD i [],
      (vf c₂).length = c₂.cnt) → ∀ (u : Nat),
      ((b.laneChunks.getD i []).foldl (fun row c₂ => writeSliceI row c₂.pos (vf c₂))
        (List.replicate numSteps 0))[u]? =
        match lastCover (b.laneChunks.getD i []) u with
        | some c₂ => (vf c₂)[u - c₂.pos.toNat]?
        | none => (List.replicate numSteps (0 : Nat))[u]? := by
    intro vf hv u
    apply foldWrite_getElem?
    intro c₂ hc₂
    refine ⟨hv c₂ hc₂, fun hp0 => ?_⟩
    have := (hwf c₂ hc₂).1
    simp only [List.length_replicate]
    omega
  obtain ⟨hcov0, hcovle, hcovlt⟩ := hccov
  have hwfc := hwf c hcmem
  have hvals := vals_length_of_wf hwfc.2.2
  -- compute both cells
  have hT : (b.next_token_id.getD i []).getD t 0 =
      (c.ids)[1 + (t - c.pos.toNat)]?.getD 0 := by
    rw [hrowTgt, List.getD_eq_getElem?_getD, rowTargets,
      hfold valsT (fun c₂ hc₂ => (vals_length_of_wf ((hwf c₂ hc₂)).2.2).2) t,
      hlc1]
    simp only [valsT]
    rw [List.getElem?_take, if_pos (by omega), List.getElem?_drop]
  have hI : (b.token_ids.getD i []).getD (t + 1) 0 =
      (c.ids)[(t + 1) - c.pos.toNat]?.getD 0 := by
    obtain ⟨-, hcovle', hcovlt'⟩ := hccov'
    rw [hrowIdx, List.getD_eq_getElem?_getD, rowIds,
      hfold valsI (fun c₂ hc₂ => (vals_length_of_wf ((hwf c₂ hc₂)).2.2).1) (t + 1),
      hlc2]
    simp only [valsI]
    rw [List.getElem?_take, if_pos (by omega)]
  rw [hT, hI]
  congr 2
  omega

/-- Witness for C1 at a concrete run: one sentence `[1,2,3]`, one lane,
`num_steps = 2`; both positions come from the same sentence and the shift
holds. -/
theorem c1_next_token_shift_witness :
    ((getBatches 1 2 none 1 [⟨[1, 2, 3], none⟩]).headD ⟨[], none, [], [], [], []⟩ ∈
      getBatches 1 2 none 1 [⟨[1, 2, 3], none⟩]) ∧
    (0 + 1 < 2) ∧
    provAt (((getBatches 1 2 none 1 [⟨[1, 2, 3], none⟩]).headD
      ⟨[], none, [], [], [], []⟩).laneChunks.getD 0 []) 0 = some 0 ∧
    provAt (((getBatches 1 2 none 1 [⟨[1, 2, 3], none⟩]).headD
      ⟨[], none, [], [], [], []⟩).laneChunks.getD 0 []) 1 = some 0 ∧
    ((((getBatches 1 2 none 1 [⟨[1, 2, 3], none⟩]).headD
      ⟨[], none, [], [], [], []⟩).next_token_id.getD 0 []).getD 0 0 =
     (((getBatches 1 2 none 1 [⟨[1, 2, 3], none⟩]).headD
      ⟨[], none, [], [], [], []⟩).token_ids.getD 0 []).getD 1 0) :=
  ⟨by decide, by decide, by decide, by decide,
    c1_next_token_shift 1 2 none 1 [⟨[1, 2, 3], none⟩] _ (by decide) 0 0 0
      (by decide) (by decide) (by decide)⟩

/-- C5 (confirmed).  A one-token (or empty) remainder is never written
into a batch: (a) the pull logic replaces a lane whose current sentence
has at most one remaining token with the next sentence from the source,
and (b) every cell of every emitted batch originates from a remainder
with at least two tokens, so a single-word sentence contributes no token
to any `token_ids`/`next_token_id` pair. -/
theorem c5_one_token_never_contributes :
    (∀ (l : Lane) (s : Sent) (rest : List Sent) (nsid : Nat),
      l.ids.length ≤ 1 →
      pullPhase (s :: rest) (some l) nsid =
        .go rest ⟨s.ids, s.chars, nsid⟩ (nsid + 1) [s]) ∧
    (∀ (batchSize numSteps : Nat) (mwl : Option Nat) (n : Nat) (stream : List Sent)
      (b : Batch), b ∈ getBatches batchSize numSteps mwl n stream →
      ∀ (i t : Nat) (c : Chunk), lastCover (b.laneChunks.getD i []) t = some c →
      2 ≤ c.ids.length) := by
  constructor
  · intro l s rest nsid hlen
    simp only [pullPhase]
    rw [if_neg (by omega)]
  · intro batchSize numSteps mwl n stream b hb i t c hlc
    rw [getBatches] at hb
    obtain ⟨-, -, hcl, -⟩ := getBatchesAux_spec numSteps mwl n stream
      (List.replicate batchSize ⟨none, 0⟩)
      (fun slot hslot l hl => by
        rw [List.eq_of_mem_replicate hslot] at hl
        cases hl)
      b hb
    rcases Nat.lt_or_ge i b.laneChunks.length with hi | hi
    · have hclmem : b.laneChunks.getD i [] ∈ b.laneChunks := by
        rw [List.getD_eq_getElem _ _ hi]
        exact List.getElem_mem hi
      obtain ⟨-, hwf⟩ := hcl _ hclmem
      obtain ⟨hcmem, hcov⟩ := lastCover_mem hlc
      have := (hwf c hcmem).2.2
      obtain ⟨-, hle, hlt⟩ := hcov
      omega
    · rw [List.getD_eq_default _ _ hi] at hlc
      cases hlc

/-- Witness for C5: a one-token sentence `[9]` followed by `[1,2,3]`; the
pull replaces the short remainder, and the only covering chunk of the
emitted batch has a remainder of length `3 ≥ 2`. -/
theorem c5_one_token_never_contributes_witness :
    (([5] : List Nat).length ≤ 1 ∧
      pullPhase [⟨[1, 2], none⟩] (some ⟨[5], none, 0⟩) 0 =
        .go [] ⟨[1, 2], none, 0⟩ 1 [⟨[1, 2], none⟩]) ∧
    (((getBatches 1 2 none 1 [⟨[9], none⟩, ⟨[1, 2, 3], none⟩]).headD
        ⟨[], none, [], [], [], []⟩ ∈
      getBatches 1 2 none 1 [⟨[9], none⟩, ⟨[1, 2, 3], none⟩]) ∧
      lastCover (((getBatches 1 2 none 1 [⟨[9], none⟩, ⟨[1, 2, 3], none⟩]).headD
        ⟨[], none, [], [], [], []⟩).laneChunks.getD 0 []) 0 =
        some ⟨0, [1, 2, 3], none, 2, 1⟩ ∧
      2 ≤ ([1, 2, 3] : List Nat).length) :=
  ⟨⟨by decide, c5_one_token_never_contributes.1 ⟨[5], none, 0⟩ ⟨[1, 2], none⟩ [] 0
      (by decide)⟩,
   ⟨by decide, by decide,
    c5_one_token_never_contributes.2 1 2 none 1 [⟨[9], none⟩, ⟨[1, 2, 3], none⟩]
      ((getBatches 1 2 none 1 [⟨[9], none⟩, ⟨[1, 2, 3], none⟩]).headD
        ⟨[], none, [], [], [], []⟩)
      (by decide) 0 0 ⟨0, [1, 2, 3], none, 2, 1⟩ (by decide)⟩⟩

/-- C3 (confirmed).  (a) If the source is exhausted while any lane of a
batch is being filled, no batch is yielded from that point on: the
in-progress batch is discarded and the sequence ends.  (b) Every batch
that is emitted was assembled without exhaustion: all of its lanes were
filled completely to `num_steps`. -/
theorem c3_incomplete_batch_discarded :
    (∀ (numSteps : Nat) (mwl : Option Nat) (stream : List Sent)
      (slots : List LaneSlot),
      (fillLanes numSteps mwl slots stream).exhausted = true →
      ∀ m, getBatchesAux numSteps mwl m stream slots = []) ∧
    (∀ (batchSize numSteps : Nat) (mwl : Option Nat) (n : Nat) (stream : List Sent)
      (b : Batch), b ∈ getBatches batchSize numSteps mwl n stream →
      ∀ p ∈ b.finalPos, p = (numSteps : Int)) := by
  constructor
  · intro numSteps mwl stream slots hex m
    cases m with
    | zero => rfl
    | succ m =>
      rw [getBatchesAux]
      simp [hex]
  · intro batchSize numSteps mwl n stream b hb p hp
    rw [getBatches] at hb
    obtain ⟨-, -, -, hfp⟩ := getBatchesAux_spec numSteps mwl n stream
      (List.replicate batchSize ⟨none, 0⟩)
      (fun slot hslot l hl => by
        rw [List.eq_of_mem_replicate hslot] at hl
        cases hl)
      b hb
    exact hfp p hp

/-- Witness for C3: with sentences `[1,2,3]`, `[4,5]` and `num_steps = 2`,
the second assembly exhausts mid-fill, so only one (complete) batch is
ever produced. -/
theorem c3_incomplete_batch_discarded_witness :
    ((fillLanes 2 none [⟨some ⟨[5], none, 0⟩, 1⟩] []).exhausted = true ∧
      getBatchesAux 2 none 7 [] [⟨some ⟨[5], none, 0⟩, 1⟩] = []) ∧
    (((getBatches 1 2 none 5 [⟨[1, 2, 3], none⟩, ⟨[4, 5], none⟩]).headD
        ⟨[], none, [], [], [], []⟩ ∈
      getBatches 1 2 none 5 [⟨[1, 2, 3], none⟩, ⟨[4, 5], none⟩]) ∧
      ∀ p ∈ ((getBatches 1 2 none 5 [⟨[1, 2, 3], none⟩, ⟨[4, 5], none⟩]).headD
        ⟨[], none, [], [], [], []⟩).finalPos, p = (2 : Int)) :=
  ⟨⟨by decide,
    c3_incomplete_batch_discarded.1 2 none [] [⟨some ⟨[5], none, 0⟩, 1⟩]
      (by decide) 7⟩,
   by decide,
   c3_incomplete_batch_discarded.2 1 2 none 5 [⟨[1, 2, 3], none⟩, ⟨[4, 5], none⟩]
     _ (by decide)⟩

/-- C10 (confirmed).  Provided every sentence of the source has at least
two tokens (and any carried-in remainder is nonempty), the per-lane fill
loop terminates within its fuel, every logged write advances the cursor by
at least one token, the writes tile the row consecutively (the cursor
never moves backwards), the cursor never exceeds `num_steps`, the loop
performs at most `num_steps` write iterations, and a non-exhausted fill
ends exactly at `num_steps`. -/
theorem c10_fill_loop_terminates
    (numSteps : Nat) (mwl : Option Nat) (stream : List Sent) (lane : Option Lane)
    (nsid : Nat)
    (hS : ∀ s ∈ stream, 2 ≤ s.ids.length)
    (hL : ∀ l, lane = some l → 1 ≤ l.ids.length) :
    (fillLane numSteps mwl stream lane nsid 0).fuelOut = false ∧
    Tiling (fillLane numSteps mwl stream lane nsid 0).chunks 0
      (fillLane numSteps mwl stream lane nsid 0).pos ∧
    (∀ c ∈ (fillLane numSteps mwl stream lane nsid 0).chunks, 1 ≤ c.cnt) ∧
    0 ≤ (fillLane numSteps mwl stream lane nsid 0).pos ∧
    (fillLane numSteps mwl stream lane nsid 0).pos ≤ (numSteps : Int) ∧
    (fillLane numSteps mwl stream lane nsid 0).chunks.length ≤ numSteps ∧
    ((fillLane numSteps mwl stream lane nsid 0).exhausted = false →
      (fillLane numSteps mwl stream lane nsid 0).pos = (numSteps : Int)) := by
  have h0 : (0 : Int) ≤ (numSteps : Int) := by exact_mod_cast Nat.zero_le numSteps
  obtain ⟨hT, hcnt, hle, hlen, -, -⟩ := fillLaneF_progress numSteps mwl
    (fillFuel numSteps stream 0) stream lane nsid 0 hS hL (le_refl _) h0
  have hcomp := fillLaneF_complete numSteps mwl (fillFuel numSteps stream 0)
    stream lane nsid 0 h0
  refine ⟨fillLane_noFuelOut numSteps mwl stream lane nsid 0, hT, hcnt, hle,
    hcomp.2, ?_, hcomp.1 (fillLane_noFuelOut numSteps mwl stream lane nsid 0)⟩
  have : ((numSteps : Int) - 0).toNat = numSteps := by omega
  rw [← this]
  exact hlen

/-- Witness for C10 at a concrete run. -/
theorem c10_fill_loop_terminates_witness :
    (∀ s ∈ [(⟨[1, 2, 3], none⟩ : Sent)], 2 ≤ s.ids.length) ∧
    (fillLane 2 none [⟨[1, 2, 3], none⟩] none 0 0).fuelOut = false ∧
    Tiling (fillLane 2 none [⟨[1, 2, 3], none⟩] none 0 0).chunks 0
      (fillLane 2 none [⟨[1, 2, 3], none⟩] none 0 0).pos ∧
    (∀ c ∈ (fillLane 2 none [⟨[1, 2, 3], none⟩] none 0 0).chunks, 1 ≤ c.cnt) ∧
    ((fillLane 2 none [⟨[1, 2, 3], none⟩] none 0 0).exhausted = false →
      (fillLane 2 none [⟨[1, 2, 3], none⟩] none 0 0).pos = (2 : Int)) := by
  have h := c10_fill_loop_terminates 2 none [⟨[1, 2, 3], none⟩] none 0
    (by decide) (fun l hl => by cases hl)
  exact ⟨by decide, h.1, h.2.1, h.2.2.1, h.2.2.2.2.2.2⟩

/-! ### Shard selection (C6, C7, C9) and generator termination (C4) -/

theorem dropLast_reverse_eq {α : Type} : ∀ (l : List α),
    l.reverse.dropLast = l.tail.reverse
  | [] => rfl
  | a :: as => by
    rw [List.reverse_cons, List.dropLast_concat]
    rfl

/-- Popping from a non-refilled bag: if the bag holds `l.reverse`, the next
`k ≤ l.length` pops return `l.take k` in order and leave `(l.drop k).reverse`. -/
theorem chooseN_bag (shuffle : List String → List String) :
    ∀ (k : Nat) (l : List String) (st : DState),
      k ≤ l.length → st.shardsToChoose = l.reverse →
      chooseN shuffle k st =
        .ok (l.take k, { st with shardsToChoose := (l.drop k).reverse })
  | 0, l, st, hk, hbag => by
    simp only [chooseN, List.take_zero, List.drop_zero, ← hbag]
  | k + 1, l, st, hk, hbag => by
    cases l with
    | nil => simp at hk
    | cons x xs =>
      have hcrs : chooseRandomShard shuffle st =
          .ok (x, { st with shardsToChoose := xs.reverse }) := by
        rw [chooseRandomShard]
        have hlen : ¬ st.shardsToChoose.length = 0 := by
          rw [hbag]
          simp
        rw [if_neg hlen, hbag, List.getLast?_reverse, List.head?_cons,
          dropLast_reverse_eq]
        rfl
      rw [chooseN, hcrs]
      dsimp only
      rw [chooseN_bag shuffle k xs { st with shardsToChoose := xs.reverse }
          (by simp at hk; omega) rfl]
      rfl

/-- C6 (confirmed).  In non-test mode, the shard bag is a
shuffle-without-replacement bag: starting from an empty bag it is refilled
once with all shard names (shuffled by a permutation), and the next
`|allShards|` picks return every shard exactly once (a permutation of
`allShards`); the bag then counts down to empty without any intervening
refill (`|bag| = |allShards| - k` after `k ≥ 1` picks) and `allShards`
itself is never consumed. -/
theorem c6_shuffle_bag (shuffle : List String → List String)
    (hperm : ∀ l, (shuffle l).Perm l) (st : DState)
    (hbag : st.shardsToChoose = []) (hne : st.allShards ≠ []) :
    ∃ picks st', chooseN shuffle st.allShards.length st = .ok (picks, st') ∧
      picks.Perm st.allShards ∧ st'.allShards = st.allShards ∧
      st'.shardsToChoose = [] ∧
      ∀ k, 1 ≤ k → k ≤ st.allShards.length →
        ∃ pk stk, chooseN shuffle k st = .ok (pk, stk) ∧
          stk.allShards = st.allShards ∧
          stk.shardsToChoose.length = st.allShards.length - k := by
  have hslen : (shuffle st.allShards).length = st.allShards.length :=
    (hperm st.allShards).length_eq
  cases hrev : (shuffle st.allShards).reverse with
  | nil =>
    exfalso
    have : shuffle st.allShards = [] := by
      have := congrArg List.reverse hrev
      simpa using this
    rw [this] at hslen
    exact hne (List.length_eq_zero.mp hslen.symm)
  | cons x xs =>
    have hsl : shuffle st.allShards = (x :: xs).reverse := by
      have := congrArg List.reverse hrev
      simpa using this
    have hcrs : chooseRandomShard shuffle st =
        .ok (x, { st with shardsToChoose := xs.reverse }) := by
      rw [chooseRandomShard, if_pos (by rw [hbag]; rfl), hsl,
        List.getLast?_reverse, List.head?_cons, dropLast_reverse_eq]
      rfl
    have hlen2 : st.allShards.length = xs.length + 1 := by
      rw [← hslen, hsl]
      simp
    have hmain : ∀ k, 1 ≤ k → k ≤ st.allShards.length →
        chooseN shuffle k st =
          .ok ((x :: xs).take k,
            { st with shardsToChoose := ((x :: xs).drop k).reverse }) := by
      intro k hk1 hk2
      cases k with
      | zero => omega
      | succ j =>
        rw [chooseN, hcrs]
        dsimp only
        rw [chooseN_bag shuffle j xs { st with shardsToChoose := xs.reverse }
            (by omega) rfl]
        rfl
    refine ⟨(x :: xs).take st.allShards.length,
      { st with shardsToChoose := ((x :: xs).drop st.allShards.length).reverse },
      hmain st.allShards.length (by omega) (le_refl _), ?_, rfl, ?_, ?_⟩
    · have htake : (x :: xs).take st.allShards.length = x :: xs := by
        apply List.take_of_length_le
        simp [hlen2]
      rw [htake, ← hrev]
      exact (List.reverse_perm _).trans (hperm st.allShards)
    · have hdrop : (x :: xs).drop st.allShards.length = [] := by
        apply List.drop_eq_nil_of_le
        simp [hlen2]
      simp [hdrop]
    · intro k hk1 hk2
      refine ⟨(x :: xs).take k,
        { st with shardsToChoose := ((x :: xs).drop k).reverse },
        hmain k hk1 hk2, rfl, ?_⟩
      simp only [List.length_reverse, List.length_drop, List.length_cons]
      omega

/-- Witness for C6: two shards, identity shuffle; picks are a permutation
of the shard list. -/
theorem c6_shuffle_bag_witness :
    (∀ l : List String, (id l).Perm l) ∧
    (∃ picks st', chooseN id (["a", "b"] : List String).length
        ⟨["a", "b"], [], false, [], 0, 0⟩ = .ok (picks, st') ∧
      picks.Perm ["a", "b"] ∧ st'.allShards = ["a", "b"] ∧
      st'.shardsToChoose = [] ∧
      ∀ k, 1 ≤ k → k ≤ (["a", "b"] : List String).length →
        ∃ pk stk, chooseN id k ⟨["a", "b"], [], false, [], 0, 0⟩ = .ok (pk, stk) ∧
          stk.allShards = ["a", "b"] ∧
          stk.shardsToChoose.length = (["a", "b"] : List String).length - k) :=
  ⟨fun l => List.Perm.refl l,
   c6_shuffle_bag id (fun l => List.Perm.refl l) ⟨["a", "b"], [], false, [], 0, 0⟩
     rfl (by decide)⟩

/-- C7 counterexample.  With shards enumerated as `["a", "b"]` in test
mode, the first load consumes shard `"b"` (Python's `list.pop()` removes
the LAST element), not the first-enumerated `"a"`: the claim's
"in the order the shards were enumerated" is false. -/
theorem c7_counterexample :
    LMDataset.init
        (fun nm => if nm = "a" then [⟨[1], none⟩] else [⟨[2], none⟩]) id
        ["a", "b"] true =
      .ok ⟨["a"], [], true, [⟨[2], none⟩], 0, 1⟩ ∧
    ((⟨[2], none⟩ : Sent) ≠ ⟨[1], none⟩) ∧
    (fun nm => if nm = "a" then [(⟨[1], none⟩ : Sent)] else [⟨[2], none⟩]) "a" =
      [⟨[1], none⟩] := by
  refine ⟨rfl, by decide, rfl⟩

/-- C7 (corrected).  In test mode, shards are consumed destructively from
`self._all_shards` with no reshuffling and no repeats, in the REVERSE of
the order they were enumerated at construction: the sequence of loaded
buffers is `allShards.reverse.map load`, truncated at exhaustion, after
which the next load raises `StopIteration`.  The shuffle oracle is never
consulted (the statement holds for every `shuffle`). -/
theorem c7_reverse_order (load : String → List Sent)
    (shuffle : List String → List String) :
    ∀ (st : DState), st.test = true → ∀ (k : Nat),
      loadSeq load shuffle k st =
        ((st.allShards.reverse.map load).take k,
          if k ≤ st.allShards.length then none else some .stopIteration) := by
  intro st htest k
  induction k generalizing st with
  | zero => simp [loadSeq]
  | succ k ih =>
    rw [loadSeq]
    cases hls : st.allShards.getLast? with
    | none =>
      have hnil : st.allShards = [] := by
        cases h : st.allShards with
        | nil => rfl
        | cons a as => rw [h] at hls; simp [List.getLast?_concat] at hls
      rw [loadRandomShard, if_pos htest, hls]
      rw [hnil]
      simp
    | some nm =>
      obtain ⟨init', hinit⟩ := List.getLast?_eq_some_iff.mp hls
      rw [loadRandomShard, if_pos htest, hls]
      have hstep := ih ⟨st.allShards.dropLast, st.shardsToChoose, st.test,
        load nm, 0, (load nm).length⟩ htest
      dsimp only at hstep
      dsimp only
      rw [hstep]
      dsimp only
      rw [hinit, List.dropLast_concat]
      have hrev : (init' ++ [nm]).reverse.map load =
          load nm :: init'.reverse.map load := by
        rw [List.reverse_append]
        rfl
      rw [hrev, List.take_succ_cons]
      have hlen : (init' ++ [nm]).length = init'.length + 1 := by simp
      rw [hlen]
      by_cases hk : k ≤ init'.length
      · rw [if_pos hk, if_pos (by omega)]
      · rw [if_neg hk, if_neg (by omega)]

/-- Witness for C7 (corrected): concrete run over two shards; the loads
come back in reverse enumeration order, then `StopIteration`. -/
theorem c7_reverse_order_witness :
    ((⟨["a", "b"], [], true, [], 0, 0⟩ : DState).test = true) ∧
    loadSeq (fun nm => if nm = "a" then [⟨[1], none⟩] else [⟨[2], none⟩]) id 3
        ⟨["a", "b"], [], true, [], 0, 0⟩ =
      (((["a", "b"] : List String).reverse.map
          (fun nm => if nm = "a" then [(⟨[1], none⟩ : Sent)] else [⟨[2], none⟩])).take 3,
        if 3 ≤ (["a", "b"] : List String).length then none
        else some .stopIteration) :=
  ⟨rfl, c7_reverse_order
    (fun nm => if nm = "a" then [⟨[1], none⟩] else [⟨[2], none⟩]) id
    ⟨["a", "b"], [], true, [], 0, 0⟩ rfl 3⟩

/-- C9 counterexample.  Constructing a dataset over a pattern that matched
zero shards IS an immediate hard failure: `__init__` eagerly calls
`_load_random_shard()` (line 75), which pops from the freshly refilled —
still empty — bag, raising `IndexError` inside the constructor.  The
claim's "not an immediate hard failure" is false. -/
theorem c9_counterexample :
    LMDataset.init (fun _ => []) id [] false = .error .indexError ∧
    ∀ st : DState, LMDataset.init (fun _ => []) id [] false ≠ .ok st := by
  refine ⟨rfl, ?_⟩
  intro st h
  rw [show LMDataset.init (fun _ => ([] : List Sent)) id [] false =
    .error .indexError from rfl] at h
  cases h

/-- C9 (corrected).  Discovery of zero shards only logs, but because the
constructor eagerly performs the first shard load, construction itself
fails fast on an empty shard set: `IndexError` (popping the empty bag) in
normal mode, `StopIteration` in test mode.  The failure happens at the
first shard-load attempt — which is inside `__init__`. -/
theorem c9_zero_shards_fail_fast (load : String → List Sent)
    (shuffle : List String → List String)
    (hperm : ∀ l, (shuffle l).Perm l) :
    LMDataset.init load shuffle [] false = .error .indexError ∧
    LMDataset.init load shuffle [] true = .error .stopIteration := by
  constructor
  · have hnil : shuffle [] = [] := (hperm []).eq_nil
    rw [LMDataset.init, loadRandomShard]
    simp only [if_neg (by simp : ¬ (⟨[], [], false, [], 0, 0⟩ : DState).test = true)]
    rw [chooseRandomShard]
    simp [hnil]
  · rfl

/-- Witness for C9 (corrected). -/
theorem c9_zero_shards_fail_fast_witness :
    (∀ l : List String, (id l).Perm l) ∧
    LMDataset.init (fun _ => []) id [] false = .error .indexError ∧
    LMDataset.init (fun _ => []) id [] true = .error .stopIteration :=
  ⟨fun l => List.Perm.refl l,
   c9_zero_shards_fail_fast (fun _ => []) id (fun l => List.Perm.refl l)⟩

/-- C4 (code bug).  `_load_random_shard` signals test-mode exhaustion with
`raise StopIteration` (line 88), but `get_sentence` (lines 123-129) is a
generator: under PEP 479 — mandatory since Python 3.7, which this
repository's MindSpore dependency requires — a `StopIteration` escaping a
generator body is replaced by `RuntimeError`.  `_get_batch` catches only
`StopIteration` (line 28), so batch iteration does NOT end normally: it
crashes with a generic `RuntimeError`, indistinguishable from a genuine
failure.  Concrete run: one shard of one sentence; the first pull yields
the sentence, the second pull crosses exhaustion. -/
theorem c4_pep479_runtime_error :
    LMDataset.init (fun _ => [⟨[1, 2], none⟩]) id ["s"] true =
      .ok ⟨[], [], true, [⟨[1, 2], none⟩], 0, 1⟩ ∧
    nextSentence (fun _ => [⟨[1, 2], none⟩]) id
        ⟨[], [], true, [⟨[1, 2], none⟩], 0, 1⟩ =
      .ok (⟨[1, 2], none⟩, ⟨[], [], true, [⟨[1, 2], none⟩], 1, 1⟩) ∧
    nextSentence (fun _ => [⟨[1, 2], none⟩]) id
        ⟨[], [], true, [⟨[1, 2], none⟩], 1, 1⟩ = .error .runtimeError ∧
    batchPull (fun _ => [⟨[1, 2], none⟩]) id
        ⟨[], [], true, [⟨[1, 2], none⟩], 1, 1⟩ = .err .runtimeError ∧
    (PyErr.runtimeError ≠ PyErr.stopIteration) ∧
    (PullOutcome.err .runtimeError ≠ PullOutcome.exhaustedClean) :=
  ⟨rfl, rfl, rfl, rfl, by decide, by decide⟩

/-- C8 (confirmed).  The bidirectional composition zips the two
batch-assembler outputs (stopping at the shorter one) and merges each
pair: the forward dict keeps all its fields under their original names
with unchanged values, and every backward field is appended re-keyed with
a `_reverse` suffix. -/
theorem c8_bidirectional_merge (fwd bwd : List Batch) :
    (iterBatchesBi fwd bwd).length = min fwd.length bwd.length ∧
    ∀ (j : Nat) (X Xr : Batch), fwd.get? j = some X → bwd.get? j = some Xr →
      (iterBatchesBi fwd bwd).get? j = some (mergeBidir X.toDict Xr.toDict) ∧
      mergeBidir X.toDict Xr.toDict =
        X.toDict ++
          [("token_ids_reverse", .mat Xr.token_ids),
           ("tokens_characters_reverse", .cmat Xr.tokens_characters),
           ("next_token_id_reverse", .mat Xr.next_token_id)] ∧
      (mergeBidir X.toDict Xr.toDict).lookup "token_ids" =
        some (.mat X.token_ids) ∧
      (mergeBidir X.toDict Xr.toDict).lookup "tokens_characters" =
        some (.cmat X.tokens_characters) ∧
      (mergeBidir X.toDict Xr.toDict).lookup "next_token_id" =
        some (.mat X.next_token_id) ∧
      (mergeBidir X.toDict Xr.toDict).lookup "token_ids_reverse" =
        some (.mat Xr.token_ids) ∧
      (mergeBidir X.toDict Xr.toDict).lookup "tokens_characters_reverse" =
        some (.cmat Xr.tokens_characters) ∧
      (mergeBidir X.toDict Xr.toDict).lookup "next_token_id_reverse" =
        some (.mat Xr.next_token_id) := by
  constructor
  · simp [iterBatchesBi]
  · intro j X Xr hX hXr
    have hX' := hX
    have hXr' := hXr
    rw [List.get?_eq_getElem?] at hX' hXr'
    have hzip : (fwd.zip bwd)[j]? = some (X, Xr) :=
      List.getElem?_zip_eq_some.mpr ⟨hX', hXr'⟩
    have hmerge : mergeBidir X.toDict Xr.toDict =
        X.toDict ++
          [("token_ids_reverse", .mat Xr.token_ids),
           ("tokens_characters_reverse", .cmat Xr.tokens_characters),
           ("next_token_id_reverse", .mat Xr.next_token_id)] := rfl
    refine ⟨?_, hmerge, rfl, rfl, rfl, rfl, rfl, rfl⟩
    rw [List.get?_eq_getElem?, iterBatchesBi, List.getElem?_map, hzip,
      Option.map_some']

/-- Witness for C8 on concrete single-batch lists. -/
theorem c8_bidirectional_merge_witness :
    (([⟨[[1, 2]], none, [[2, 3]], [], [], []⟩] : List Batch).get? 0 =
      some ⟨[[1, 2]], none, [[2, 3]], [], [], []⟩) ∧
    (([⟨[[7, 8]], none, [[8, 9]], [], [], []⟩] : List Batch).get? 0 =
      some ⟨[[7, 8]], none, [[8, 9]], [], [], []⟩) ∧
    (iterBatchesBi [⟨[[1, 2]], none, [[2, 3]], [], [], []⟩]
        [⟨[[7, 8]], none, [[8, 9]], [], [], []⟩]).length =
      min 1 1 ∧
    (mergeBidir (Batch.toDict ⟨[[1, 2]], none, [[2, 3]], [], [], []⟩)
        (Batch.toDict ⟨[[7, 8]], none, [[8, 9]], [], [], []⟩)).lookup
      "token_ids_reverse" = some (.mat [[7, 8]]) :=
  ⟨by decide, by decide,
   (c8_bidirectional_merge [⟨[[1, 2]], none, [[2, 3]], [], [], []⟩]
     [⟨[[7, 8]], none, [[8, 9]], [], [], []⟩]).1,
   ((c8_bidirectional_merge [⟨[[1, 2]], none, [[2, 3]], [], [], []⟩]
       [⟨[[7, 8]], none, [[8, 9]], [], [], []⟩]).2 0
     ⟨[[1, 2]], none, [[2, 3]], [], [], []⟩ ⟨[[7, 8]], none, [[8, 9]], [], [], []⟩
     (by decide) (by decide)).2.2.2.2.2.1⟩

/-- C2 counterexample.  The claim fails without a non-emptiness proviso:
with the sentence stream `[10,11,12,13]`, `[]` (an empty encoded
sentence), `[20,21,22]` and `num_steps = 4`, `how_many` becomes `-1` for
the empty sentence, the cursor moves backwards from 3 to 2, and the next
sentence OVERWRITES the already-written cell at position 2 (all numpy
writes on this trace are legal, so Python emits this batch).  Token `12`
is lost from the lane: the lane's `(token, next_token)` transcript is not
a prefix of the pulled sentences' pair concatenation — unshifting cannot
reconstruct a prefix of the pulled sentences. -/
theorem c2_counterexample :
    ¬ ∃ rest,
      rowPairsOf (getBatches 1 4 none 1
          [⟨[10, 11, 12, 13], none⟩, ⟨[], none⟩, ⟨[20, 21, 22], none⟩]) 0 ++ rest =
        (lanePullsOf (getBatches 1 4 none 1
          [⟨[10, 11, 12, 13], none⟩, ⟨[], none⟩, ⟨[20, 21, 22], none⟩]) 0).flatMap
          (fun s => pairsOf s.ids) := by
  rintro ⟨rest, h⟩
  have hlen : (rowPairsOf (getBatches 1 4 none 1
      [⟨[10, 11, 12, 13], none⟩, ⟨[], none⟩, ⟨[20, 21, 22], none⟩]) 0).length =
      4 := by decide
  have h4 := congrArg (List.take 4) h
  rw [List.take_left' hlen] at h4
  exact absurd h4 (by decide)

/-- C2 (corrected/amended).  Provided every sentence of the source stream
is non-empty, then for every lane `i` the per-position
`(token_ids[i,t], next_token_id[i,t])` pairs, concatenated across all
emitted batches, form a prefix of the concatenation over the lane's
pulled sentences (in pull order) of their adjacent-pair sequences: no
tokens are dropped, duplicated or reordered within a lane, and the only
missing part is the final undelivered remainder at stream end.
(`(t, t+1)`-pair transcripts are the unshifted view of the `token_ids` /
`next_token_id` rows.) -/
theorem c2_lane_transcript_prefix (batchSize numSteps : Nat) (mwl : Option Nat)
    (n : Nat) (stream : List Sent)
    (hS : ∀ s ∈ stream, s.ids ≠ []) (i : Nat) :
    ∃ rest,
      rowPairsOf (getBatches batchSize numSteps mwl n stream) i ++ rest =
        (lanePullsOf (getBatches batchSize numSteps mwl n stream) i).flatMap
          (fun s => pairsOf s.ids) := by
  rw [getBatches]
  obtain ⟨rest, hrest⟩ := getBatchesAux_prefix numSteps mwl n stream
    (List.replicate batchSize ⟨none, 0⟩) hS
    (fun slot hslot l hl => by
      rw [List.eq_of_mem_replicate hslot] at hl
      cases hl)
    i
  refine ⟨rest, ?_⟩
  rw [hrest]
  have : ((List.replicate batchSize (⟨none, 0⟩ : LaneSlot)).getD i
      ⟨none, 0⟩) = ⟨none, 0⟩ := by
    rcases Nat.lt_or_ge i batchSize with hi | hi
    · rw [List.getD_eq_getElem _ _ (by simpa using hi), List.getElem_replicate]
    · exact List.getD_eq_default _ _ (by simpa using hi)
  rw [this]
  rfl

/-- Witness for C2 (amended): the run of the spec's end-to-end scenario
(`[1,2,3]` then `[4,5]`, one lane, `num_steps = 2`). -/
theorem c2_lane_transcript_prefix_witness :
    (∀ s ∈ [(⟨[1, 2, 3], none⟩ : Sent), ⟨[4, 5], none⟩], s.ids ≠ []) ∧
    ∃ rest,
      rowPairsOf (getBatches 1 2 none 3 [⟨[1, 2, 3], none⟩, ⟨[4, 5], none⟩]) 0 ++
          rest =
        (lanePullsOf (getBatches 1 2 none 3
          [⟨[1, 2, 3], none⟩, ⟨[4, 5], none⟩]) 0).flatMap
          (fun s => pairsOf s.ids) :=
  ⟨by decide,
   c2_lane_transcript_prefix 1 2 none 3 [⟨[1, 2, 3], none⟩, ⟨[4, 5], none⟩]
     (by decide) 0⟩

end Elmo
